import Mathlib

/-!
# multi-source-downloader: path safety, part assembly and cleanup

A shallow embedding of the Go sources
`utils/utils.go` (`SanitizePath`), `fileutils/fileutils.go` (`ValidatePath`,
`ExtractPathAndFilename`, `RemovePartsOrDirectory`) and `assembler/assembler.go`
(`AssembleFileFromParts`), followed by the properties proved about them.

Conventions of the embedding:

* A Go `string` is a Lean `String`; the functions work on its list of characters.
  Every character the code looks at (`/`, `.`, `~`, the class `[A-Za-z0-9_.-]`) is
  ASCII, so splitting and matching by character agrees with Go's byte-wise
  processing of UTF-8 text.
* The standard-library functions the sources call (`strings.*`, `filepath.Clean`,
  `filepath.Join`) are embedded next to their callers. `filepath.Clean` follows the
  read/write loop of the Go implementation for the Unix separator `/` (no volume names).
* `sort.Slice` and `hasher.CalculateSHA256` are parameters of `AssembleFileFromParts`.
  `SortsByKey` states the contract of `sort.Slice`; `insertionSortLess`, the algorithm
  Go runs on short slices, is an instance of it.
* Go's `int` and `int64` are 64-bit two's complement: the results of `-` and `*` are
  wrapped by `wrapInt64`.
* Operating-system state is explicit: the files a glob returned, the listing a
  directory read returned, whether a removal succeeds. The reads and removals
  `AssembleFileFromParts` performs on the globbed files succeed; `a.Log.Fatal` ends the
  process, which the result records.
-/

namespace Downloader

/-! ## Go `strings` helpers -/

/-- Go `strings.HasPrefix(s, pre)`. -/
def hasPrefix (s pre : List Char) : Bool :=
  pre.isPrefixOf s

/-- Go `strings.HasSuffix(s, suf)`. -/
def hasSuffix (s suf : List Char) : Bool :=
  suf.reverse.isPrefixOf s.reverse

/-- Go `strings.Contains(s, sub)`: some position of `s` starts with `sub`. -/
def containsSub : List Char → List Char → Bool
  | [], sub => sub.isEmpty
  | c :: cs, sub => sub.isPrefixOf (c :: cs) || containsSub cs sub

/-- Go `strings.Split(s, "/")`: the pieces between the separators; always at least
one piece, and one more piece than there are separators. -/
def splitSlash : List Char → List (List Char)
  | [] => [[]]
  | c :: cs =>
    if c = '/' then [] :: splitSlash cs
    else
      match splitSlash cs with
      | [] => [[c]]
      | s :: ss => (c :: s) :: ss

/-- Go `strings.Join(elems, "/")`. -/
def joinSlash : List (List Char) → List Char
  | [] => []
  | [s] => s
  | s :: t :: ss => s ++ '/' :: joinSlash (t :: ss)

/-! ## `filepath.Clean` (Unix) -/

/-- The inner loop of the `..` case of `filepath.Clean`, on the reversed buffer: the
head `c` is the byte at the write index `w`, the tail is the buffer before it.
`for out.w > dotdot && !os.IsPathSeparator(out.index(out.w)) { out.w-- }`. -/
def backtrackRev (dotdot : Nat) : List Char → List Char
  | [] => []
  | c :: r => if dotdot < r.length ∧ c ≠ '/' then backtrackRev dotdot r else r

/-- The `..` case that can backtrack: `out.w--` followed by the loop above. The
buffer is cut back to the previous separator, or to `dotdot`. -/
def backtrack (dotdot : Nat) (out : List Char) : List Char :=
  (backtrackRev dotdot out.reverse).reverse

/-- The main loop `for r < n` of `filepath.Clean`. `rest` is the unread input
`path[r:]`, `out` the bytes written so far (`out.w = out.length`), `dotdot` the index
where `..` must stop. Each iteration reads at least one byte, so a fuel of
`len(path) + 1` is never exhausted. -/
def cleanLoop (rooted : Bool) : Nat → List Char → List Char → Nat → List Char
  | 0, _, out, _ => out
  | _ + 1, [], out, _ => out
  | fuel + 1, c :: r1, out, dotdot =>
    if c = '/' then
      -- empty path element
      cleanLoop rooted fuel r1 out dotdot
    else if c = '.' ∧ (r1 = [] ∨ r1.head? = some '/') then
      -- . element
      cleanLoop rooted fuel r1 out dotdot
    else if c = '.' ∧ r1.head? = some '.' ∧ (r1.tail = [] ∨ r1.tail.head? = some '/') then
      -- .. element: remove to last separator
      if dotdot < out.length then
        cleanLoop rooted fuel r1.tail (backtrack dotdot out) dotdot
      else if rooted = false then
        let out1 := if 0 < out.length then out ++ ['/'] else out
        let out2 := out1 ++ ['.', '.']
        cleanLoop rooted fuel r1.tail out2 out2.length
      else
        cleanLoop rooted fuel r1.tail out dotdot
    else
      -- real path element: add slash if needed, copy element
      let out1 :=
        if (rooted = true ∧ out.length ≠ 1) ∨ (rooted = false ∧ out.length ≠ 0)
        then out ++ ['/'] else out
      cleanLoop rooted fuel ((c :: r1).dropWhile (fun x => x != '/'))
        (out1 ++ (c :: r1).takeWhile (fun x => x != '/')) dotdot

/-- Go `filepath.Clean` for Unix paths, on character lists. -/
def cleanChars (path : List Char) : List Char :=
  if path = [] then ['.']
  else
    let rooted : Bool := path.head? = some '/'
    let out :=
      if rooted then cleanLoop rooted (path.length + 1) path.tail ['/'] 1
      else cleanLoop rooted (path.length + 1) path [] 0
    -- Turn empty string into "."
    if out = [] then ['.'] else out

/-- Go `filepath.Clean(path)`. -/
def Clean (path : String) : String :=
  String.mk (cleanChars path.data)

/-- `Utils.SanitizePath` on character lists. -/
def sanitizeChars (path : List Char) : List Char :=
  let cleanedPath := cleanChars path
  if hasSuffix cleanedPath ['/'] then cleanedPath.take (cleanedPath.length - 1)
  else cleanedPath

/-- `Utils.SanitizePath` (utils/utils.go): clean the path, then remove a trailing
`os.PathSeparator` if there is one. -/
def SanitizePath (path : String) : String :=
  String.mk (sanitizeChars path.data)

/-! ### `Clean` read element by element

The loop of `Clean` handles one path element per round. The definitions below describe a
round on the list of elements kept so far; the properties section proves that the
character loop computes exactly this. -/

/-- A path element that `Clean` copies: not empty, not `.`, not `..`, free of separators. -/
def RealElem (e : List Char) : Prop :=
  e ≠ [] ∧ e ≠ ['.'] ∧ e ≠ ['.', '.'] ∧ '/' ∉ e

/-- One round of `Clean` on the kept elements: `st.1` holds the copied elements, the most
recent first, and `st.2` counts the leading `..` elements of a path that is not rooted.
An empty element or `.` is dropped; `..` removes the most recent copied element, or, when
there is none, is dropped (rooted) or counted (not rooted); any other element is copied. -/
def cleanStep (rooted : Bool) (st : List (List Char) × Nat) (seg : List Char) :
    List (List Char) × Nat :=
  if seg = [] ∨ seg = ['.'] then st
  else if seg = ['.', '.'] then
    match st.1 with
    | _ :: reals => (reals, st.2)
    | [] => if rooted then st else ([], st.2 + 1)
  else (seg :: st.1, st.2)

/-- The buffer that corresponds to the kept elements: the leading separator of a rooted
path, then the `..` elements and the copied elements joined by separators. -/
def renderElems (rooted : Bool) (st : List (List Char) × Nat) : List Char :=
  (if rooted then ['/'] else []) ++ joinSlash (List.replicate st.2 ['.', '.'] ++ st.1.reverse)

/-- `Clean` computed element by element. -/
def cleanElems (path : List Char) : List Char :=
  let rooted : Bool := path.head? = some '/'
  let out := renderElems rooted ((splitSlash path).foldl (cleanStep rooted) ([], 0))
  if out = [] then ['.'] else out

/-- Go `filepath.Join(elem...)`: empty leading elements are skipped, the rest is joined
with `/` and cleaned; the result is empty when every element is empty. -/
def Join (elem : List String) : String :=
  match elem.dropWhile (fun e => e.data.isEmpty) with
  | [] => ""
  | e :: es => String.mk (cleanChars (joinSlash ((e :: es).map String.data)))

/-! ## `Fileutils.ValidatePath` -/

/-- The errors `ValidatePath` returns, one per `errors.New` of the function. -/
inductive PathError where
  /-- "error getting current directory" -/
  | getwd
  /-- "error getting user home directory" -/
  | homeDir
  /-- "invalid path - escaping directory not allowed" -/
  | escape
  /-- "invalid path - outside home or app directory not allowed" -/
  | outsideRoot
  /-- "invalid character in path or filename" -/
  | invalidChar
  /-- "invalid path format" -/
  | format
  deriving DecidableEq, Repr

/-- The character class `[a-zA-Z0-9_-]` of `dirRegex`. -/
def dirChar (c : Char) : Bool :=
  ('a' ≤ c && c ≤ 'z') || ('A' ≤ c && c ≤ 'Z') || ('0' ≤ c && c ≤ '9') || c == '_' || c == '-'

/-- The character class `[a-zA-Z0-9_.-]` of `filenameRegex`. -/
def filenameChar (c : Char) : Bool :=
  ('a' ≤ c && c ≤ 'z') || ('A' ≤ c && c ≤ 'Z') || ('0' ≤ c && c ≤ '9') || c == '_' || c == '.'
    || c == '-'

/-- `dirRegex.MatchString(s)` for `^[a-zA-Z0-9_-]+$`: one or more characters, all in
the class (Go's `$` matches at the end of the text only). -/
def matchDirRegex (s : List Char) : Bool :=
  !s.isEmpty && s.all dirChar

/-- `filenameRegex.MatchString(s)` for `^[a-zA-Z0-9_.-]+$`. -/
def matchFilenameRegex (s : List Char) : Bool :=
  !s.isEmpty && s.all filenameChar

/-- `Fileutils.ExtractPathAndFilename` (fileutils/fileutils.go): directory, filename and
the error, which is always `nil`. -/
def ExtractPathAndFilename (path : String) : String × String × Option PathError :=
  let parts := splitSlash path.data
  if hasSuffix path.data ['/'] then
    (String.mk (joinSlash (parts.take (parts.length - 1))), "", none)
  else if 1 < parts.length then
    (String.mk (joinSlash (parts.take (parts.length - 1))),
      String.mk (parts.getD (parts.length - 1) []), none)
  else
    ("", String.mk (parts.getD 0 []), none)

/-- The loop of `ValidatePath` over the split path: the first part that is not
`.`, `~` or empty and matches neither regular expression ends the loop with the
invalid-character error. -/
def validateParts : List (List Char) → Option PathError
  | [] => none
  | part :: rest =>
    if part = ['.'] ∨ part = ['~'] ∨ part = [] then validateParts rest
    else if !matchDirRegex part && !matchFilenameRegex part then some PathError.invalidChar
    else validateParts rest

/-- `Fileutils.ValidatePath` (fileutils/fileutils.go). `cwd` and `home` are the results of
`os.Getwd()` and `os.UserHomeDir()` (`none` when the lookup fails). The pair returned is
Go's `(string, error)`. -/
def ValidatePath (cwd home : Option String) (path : String) : String × Option PathError :=
  match cwd with
  | none => ("", some PathError.getwd)
  | some currentDirectory =>
    match home with
    | none => ("", some PathError.homeDir)
    | some homeDir =>
      -- Check for path escaping out of home directory
      if containsSub path.data ['.', '.', '/'] then ("", some PathError.escape)
      -- Check if the path is absolute (starts with "/")
      else if hasPrefix path.data ['/'] && (!hasPrefix path.data currentDirectory.data
          && !hasPrefix path.data homeDir.data) then
        ("", some PathError.outsideRoot)
      else
        -- Split path and validate each part
        match validateParts (splitSlash path.data) with
        | some e => ("", some e)
        | none =>
          -- Check for valid paths starting with ~ or ./
          if hasPrefix path.data ['.', '/'] || hasPrefix path.data ['~', '/'] then
            match ExtractPathAndFilename path with
            | (directory, filename, none) =>
              ("Valid path. Directory: " ++ directory ++ ". Filename: " ++ filename, none)
            | (_, _, some _) => ("", some PathError.format)
          else ("Valid path. Directory: " ++ path, none)

/-! ## `Fileutils.RemovePartsOrDirectory` -/

/-- An entry of a directory listing. `removable` tells whether `os.Remove` on the entry
succeeds (it fails, for instance, on a non-empty directory or without permission). -/
structure DirEntry where
  name : String
  removable : Bool
  deriving DecidableEq, Repr

/-- The errors `RemovePartsOrDirectory` returns. -/
inductive CleanupError where
  /-- "failed to read directory: %w" -/
  | readDir
  /-- "failed to remove parts directory: %w" -/
  | removeAll
  deriving DecidableEq, Repr

/-- What a call of `RemovePartsOrDirectory` returned and did. -/
structure CleanupResult where
  /-- The returned error; `none` is Go's `nil`. -/
  err : Option CleanupError
  /-- The directory handed to `os.ReadDir`, if the call listed one. -/
  listed : Option String
  /-- The entries of the listed directory that are still present after the call. -/
  remaining : List DirEntry
  /-- The paths on which `os.Remove` succeeded, in call order. -/
  removed : List String
  /-- The path handed to `os.RemoveAll`, if it was called. -/
  removeAllArg : Option String
  deriving DecidableEq, Repr

/-- The loop of the shared-directory branch over the listing `files`. The state is the
directory's current entries and the paths removed so far. A failed `os.Remove` only logs
a warning and the loop goes on. -/
def removePrefixed (dir prefixParts : String) :
    List DirEntry → List DirEntry × List String → List DirEntry × List String
  | [], st => st
  | file :: rest, (present, removed) =>
    if hasPrefix file.name.data prefixParts.data then
      if file.removable then
        removePrefixed dir prefixParts rest
          (present.filter (fun e => e.name != file.name), removed ++ [Join [dir, file.name]])
      else
        removePrefixed dir prefixParts rest (present, removed)
    else
      removePrefixed dir prefixParts rest (present, removed)

/-- `Fileutils.RemovePartsOrDirectory` (fileutils/fileutils.go). `readDir` is the result
`os.ReadDir` gives for a path (`none` when it fails) and `removeAllOk` tells whether
`os.RemoveAll` succeeds on a path. -/
def RemovePartsOrDirectory (readDir : String → Option (List DirEntry))
    (removeAllOk : String → Bool) (keepParts : Bool) (partsDir appRoot prefixParts : String) :
    CleanupResult :=
  if !keepParts then
    let sanitizedPartsDir := SanitizePath partsDir
    let sanitizedAppRoot := SanitizePath appRoot
    -- If sanitizedPartsDir matches sanitizedAppRoot, remove only files with a specific prefix
    if sanitizedPartsDir = sanitizedAppRoot then
      match readDir sanitizedPartsDir with
      | none =>
        { err := some CleanupError.readDir, listed := some sanitizedPartsDir, remaining := [],
          removed := [], removeAllArg := none }
      | some files =>
        let st := removePrefixed sanitizedPartsDir prefixParts files (files, [])
        { err := none, listed := some sanitizedPartsDir, remaining := st.1, removed := st.2,
          removeAllArg := none }
    else if sanitizedPartsDir ≠ "" ∧ sanitizedPartsDir ≠ "." ∧ sanitizedPartsDir ≠ "./" then
      -- Remove the directory and all its contents
      if removeAllOk partsDir then
        { err := none, listed := none, remaining := [], removed := [],
          removeAllArg := some partsDir }
      else
        { err := some CleanupError.removeAll, listed := none, remaining := [], removed := [],
          removeAllArg := some partsDir }
    else
      { err := none, listed := none, remaining := [], removed := [], removeAllArg := none }
  else
    { err := none, listed := none, remaining := [], removed := [], removeAllArg := none }

/-! ## `Assembler.AssembleFileFromParts` -/

/-- Two's-complement wrap-around of a 64-bit signed result. -/
def wrapInt64 (x : Int) : Int :=
  (x + 2 ^ 63) % 2 ^ 64 - 2 ^ 63

/-- Modelled from the spec: the record `manifest.DownloadedPart`, whose package is not among
the sources. The fields are those the specification's data model lists and the callers
use: content hash, ordinal position, timestamp and original path. -/
structure DownloadedPart where
  FileHash : String
  PartNumber : Int
  Timestamp : Int
  PartFile : String
  deriving DecidableEq, Repr

/-- Modelled from the spec: `manifest.DownloadManifest`, the collection of the
`DownloadedPart` records, held in the field `DownloadedParts` the comparator ranges over. -/
structure DownloadManifest where
  DownloadedParts : List DownloadedPart
  deriving DecidableEq, Repr

/-- A file returned by `filepath.Glob`: its path and the bytes it holds. -/
structure PartFile where
  name : String
  content : List UInt8
  deriving DecidableEq, Repr

/-- The loop `for _, part := range manifest.DownloadedParts` of the comparator, for one
hash: `num` is overwritten by the part number of every entry whose `FileHash` equals
`hash` (there is no `break`); the caller starts it at `-1`. -/
def partNumberLoop (hash : String) : List DownloadedPart → Int → Int
  | [], num => num
  | part :: rest, num =>
    partNumberLoop hash rest (if part.FileHash = hash then part.PartNumber else num)

/-- The part number the comparator gives a file: `-1` unless an entry of the manifest
carries the file's hash. -/
def partNumberOf (sha : List UInt8 → String) (m : DownloadManifest) (f : PartFile) : Int :=
  partNumberLoop (sha f.content) m.DownloadedParts (-1)

/-- The comparator handed to `sort.Slice`: `numI < numJ`. `sha` stands for
`hasher.CalculateSHA256`, of a package that is not among the sources: the digest of a
file, a function of the bytes the file holds. -/
def lessByManifest (sha : List UInt8 → String) (m : DownloadManifest) (fi fj : PartFile) :
    Bool :=
  decide (partNumberOf sha m fi < partNumberOf sha m fj)

/-- The inner loop of Go's `insertionSortLessFunc`,
`for j := i; j > a && less(j, j-1); j-- { swap(j, j-1) }`, on the reversed sorted prefix
(its head is the element left of `x`). -/
def insertRev {α : Type} (less : α → α → Bool) (x : α) : List α → List α
  | [] => [x]
  | y :: rest => if less x y then y :: insertRev less x rest else x :: y :: rest

/-- Go's `insertionSortLessFunc`, the algorithm `sort.Slice` runs on slices of at most
12 elements. -/
def insertionSortLess {α : Type} (less : α → α → Bool) (data : List α) : List α :=
  (data.foldl (fun sortedRev x => insertRev less x sortedRev) []).reverse

/-- The contract of `sort.Slice` for a comparator that compares integer keys: the slice
is permuted and ends up in non-decreasing key order. Ties may land in any order
(`sort.Slice` is not stable). -/
def SortsByKey (sortSlice : (PartFile → PartFile → Bool) → List PartFile → List PartFile) :
    Prop :=
  ∀ (key : PartFile → Int) (l : List PartFile),
    (sortSlice (fun a b => decide (key a < key b)) l).Perm l ∧
    (sortSlice (fun a b => decide (key a < key b)) l).Pairwise (fun a b => key a ≤ key b)

/-- The two calls of `a.Log.Fatal` after `io.Copy`, with the loop index `i` at which the
process stopped. -/
inductive FatalError where
  /-- "Error: File part not completely copied" -/
  | partNotCopied (i : Nat)
  /-- "Error: Last file part not completely copied" -/
  | lastPartNotCopied (i : Nat)
  deriving DecidableEq, Repr

/-- The observable outcome of `AssembleFileFromParts`. -/
structure AssembleResult where
  /-- The fatal error that ended the process; `none` when the function reached its end. -/
  fatal : Option FatalError
  /-- The bytes appended to `outFile`. -/
  written : List UInt8
  /-- The paths handed to `os.Open`, in call order. -/
  opened : List String
  /-- The paths handed to `os.Remove`, in call order. -/
  removed : List String
  deriving DecidableEq, Repr

/-- Modelled from the spec: `Logger.Fatal` of the repository's `logger` package, which is
not among the sources. The specification calls a size mismatch "fatal, non-recoverable"
and says the abort was "achieved via process termination": the call records the error and
nothing of `AssembleFileFromParts` runs after it. -/
def logFatal (st : AssembleResult) (e : FatalError) : AssembleResult :=
  { st with fatal := some e }

/-- The value `numParts-1` of type `int`. -/
def lastIndex (numParts : Int) : Int :=
  wrapInt64 (numParts - 1)

/-- The value `int64(size)-int64(rangeSize)*int64(numParts-1)`. -/
def lastPartSize (size rangeSize numParts : Int) : Int :=
  wrapInt64 (size - wrapInt64 (rangeSize * lastIndex numParts))

/-- The condition under which the loop calls `a.Log.Fatal` for the file at index `i`:
a part that is not at index `numParts-1` and does not hold `rangeSize` bytes, or the part
at index `numParts-1` when it does not hold `lastPartSize` bytes. -/
def failsSizeCheck (numParts rangeSize size : Int) (i : Nat) (file : PartFile) : Bool :=
  decide (((i : Int) ≠ lastIndex numParts ∧ (file.content.length : Int) ≠ rangeSize) ∨
    ((i : Int) = lastIndex numParts ∧
      (file.content.length : Int) ≠ lastPartSize size rangeSize numParts))

/-- The fatal error of a file that fails the size check at index `i`. -/
def sizeCheckError (numParts : Int) (i : Nat) : FatalError :=
  if (i : Int) ≠ lastIndex numParts then FatalError.partNotCopied i
  else FatalError.lastPartNotCopied i

/-- The loop `for i, file := range files` of `AssembleFileFromParts`, from index `i` on.
The part is opened and copied in full before its byte count is checked; a failed check
ends the process before the part is removed. -/
def copyLoop (numParts rangeSize size : Int) (keepParts : Bool) :
    Nat → List PartFile → AssembleResult → AssembleResult
  | _, [], st => st
  | i, file :: rest, st =>
    let copied : Int := file.content.length
    let st1 : AssembleResult :=
      { st with opened := st.opened ++ [file.name], written := st.written ++ file.content }
    if (i : Int) ≠ lastIndex numParts ∧ copied ≠ rangeSize then
      logFatal st1 (FatalError.partNotCopied i)
    else if (i : Int) = lastIndex numParts ∧ copied ≠ lastPartSize size rangeSize numParts then
      logFatal st1 (FatalError.lastPartNotCopied i)
    else
      copyLoop numParts rangeSize size keepParts (i + 1) rest
        (if !keepParts then { st1 with removed := st1.removed ++ [file.name] } else st1)

/-- `Assembler.AssembleFileFromParts` (assembler/assembler.go). `files` is what
`filepath.Glob(a.PartsDir + "output-*")` returned, `sortSlice` is `sort.Slice` and `sha`
is `hasher.CalculateSHA256`. The operating-system calls on the globbed files
(`os.Open`, `io.Copy`, `os.Remove`, reading a file to hash it) succeed. -/
def AssembleFileFromParts
    (sortSlice : (PartFile → PartFile → Bool) → List PartFile → List PartFile)
    (sha : List UInt8 → String) (m : DownloadManifest) (files : List PartFile)
    (numParts rangeSize size : Int) (keepParts : Bool) : AssembleResult :=
  let sorted := sortSlice (lessByManifest sha m) files
  copyLoop numParts rangeSize size keepParts 0 sorted
    { fatal := none, written := [], opened := [], removed := [] }

/-- A stand-in for the hashing collaborator on small examples: the bytes read back as
text, which tells apart any two different byte strings. -/
def exampleHash (bytes : List UInt8) : String :=
  String.mk (bytes.map (fun b => Char.ofNat b.toNat))

/-- The bytes of an ASCII text. -/
def asciiBytes (s : String) : List UInt8 :=
  s.data.map (fun c => c.toNat.toUInt8)

/-! ## Example data -/

/-- The manifest of the repository's test: three parts numbered 1, 2, 3 whose hashes are
those of `content1`, `content2`, `content3`, listed out of order. -/
def exampleManifest : DownloadManifest :=
  { DownloadedParts :=
      [ { FileHash := exampleHash (asciiBytes "content2"), PartNumber := 2, Timestamp := 0,
          PartFile := "part_2" },
        { FileHash := exampleHash (asciiBytes "content1"), PartNumber := 1, Timestamp := 0,
          PartFile := "part_1" },
        { FileHash := exampleHash (asciiBytes "content3"), PartNumber := 3, Timestamp := 0,
          PartFile := "part_3" } ] }

/-- The first part file of the test. The three files are named so that their names sort
against the part order. -/
def part1 : PartFile := { name := "output-c", content := asciiBytes "content1" }

/-- The second part file of the test. -/
def part2 : PartFile := { name := "output-a", content := asciiBytes "content2" }

/-- The third part file of the test. -/
def part3 : PartFile := { name := "output-b", content := asciiBytes "content3" }

/-- The second part cut short to five bytes. -/
def part2Truncated : PartFile := { name := "output-a", content := asciiBytes "conte" }

/-- A file whose hash is in no entry of `exampleManifest`. -/
def strayFile : PartFile := { name := "output-stray", content := asciiBytes "unknown!" }

/-- `exampleManifest` with the hash of the second entry replaced by the hash of the
truncated part. -/
def truncatedManifest : DownloadManifest :=
  { DownloadedParts :=
      [ { FileHash := exampleHash (asciiBytes "conte"), PartNumber := 2, Timestamp := 0,
          PartFile := "part_2" },
        { FileHash := exampleHash (asciiBytes "content1"), PartNumber := 1, Timestamp := 0,
          PartFile := "part_1" },
        { FileHash := exampleHash (asciiBytes "content3"), PartNumber := 3, Timestamp := 0,
          PartFile := "part_3" } ] }

/-! # Properties -/

/-! ## Path validation -/

theorem hasPrefix_iff (s pre : List Char) : hasPrefix s pre = true ↔ pre <+: s := by
  unfold hasPrefix
  exact List.isPrefixOf_iff_prefix

theorem containsSub_iff (s sub : List Char) : containsSub s sub = true ↔ sub <:+: s := by
  induction s with
  | nil =>
    simp [containsSub, List.isEmpty_iff]
  | cons c cs ih =>
    simp only [containsSub, Bool.or_eq_true, ih, List.infix_cons_iff, List.isPrefixOf_iff_prefix]

theorem dirChar_filenameChar (c : Char) (h : dirChar c = true) : filenameChar c = true := by
  unfold dirChar at h
  unfold filenameChar
  simp only [Bool.or_eq_true] at h ⊢
  tauto

theorem matchDirRegex_imp (s : List Char) (h : matchDirRegex s = true) :
    matchFilenameRegex s = true := by
  unfold matchDirRegex at h
  unfold matchFilenameRegex
  simp only [Bool.and_eq_true, List.all_eq_true] at h ⊢
  exact ⟨h.1, fun c hc => dirChar_filenameChar c (h.2 c hc)⟩

theorem matchFilenameRegex_iff (s : List Char) :
    matchFilenameRegex s = true ↔ s ≠ [] ∧ ∀ c ∈ s, filenameChar c = true := by
  unfold matchFilenameRegex
  cases s <;> simp

theorem validateParts_eq_none_iff (parts : List (List Char)) :
    validateParts parts = none ↔
      ∀ seg ∈ parts, seg = ['.'] ∨ seg = ['~'] ∨ seg = [] ∨
        (seg ≠ [] ∧ ∀ c ∈ seg, filenameChar c = true) := by
  induction parts with
  | nil => simp [validateParts]
  | cons part rest ih =>
    rw [validateParts]
    by_cases h1 : part = ['.'] ∨ part = ['~'] ∨ part = []
    · rw [if_pos h1, ih]
      constructor
      · intro h seg hseg
        rcases List.mem_cons.1 hseg with rfl | hmem
        · tauto
        · exact h seg hmem
      · intro h seg hseg
        exact h seg (List.mem_cons_of_mem _ hseg)
    · rw [if_neg h1]
      by_cases h2 : matchFilenameRegex part = true
      · have h3 : (!matchDirRegex part && !matchFilenameRegex part) = false := by simp [h2]
        rw [h3]
        simp only [Bool.false_eq_true, if_false, ih]
        constructor
        · intro h seg hseg
          rcases List.mem_cons.1 hseg with rfl | hmem
          · exact Or.inr (Or.inr (Or.inr ((matchFilenameRegex_iff _).1 h2)))
          · exact h seg hmem
        · intro h seg hseg
          exact h seg (List.mem_cons_of_mem _ hseg)
      · have h3 : (!matchDirRegex part && !matchFilenameRegex part) = true := by
          have : matchDirRegex part ≠ true := fun hd => h2 (matchDirRegex_imp _ hd)
          simp [h2, this]
        rw [h3]
        simp only [if_true]
        constructor
        · intro h; cases h
        · intro h
          exfalso
          rcases h part (List.mem_cons_self _ _) with h | h | h | h
          · exact h1 (Or.inl h)
          · exact h1 (Or.inr (Or.inl h))
          · exact h1 (Or.inr (Or.inr h))
          · exact h2 ((matchFilenameRegex_iff _).2 h)

theorem ExtractPathAndFilename_err (path : String) : (ExtractPathAndFilename path).2.2 = none := by
  unfold ExtractPathAndFilename
  simp only []
  split_ifs <;> rfl

/-- C6: for a relative path (one that does not start with `/`), when the working-directory
and home-directory lookups succeed, `ValidatePath` returns no error if and only if the path
does not contain the substring `../` and every `/`-separated segment is `.`, `~`, empty, or
a non-empty string of characters from `[A-Za-z0-9_.-]`. -/
theorem ValidatePath_relative_accepts_iff (cwd home path : String)
    (hrel : ¬ (['/'] <+: path.data)) :
    (ValidatePath (some cwd) (some home) path).2 = none ↔
      (¬ (['.', '.', '/'] <:+: path.data) ∧
        ∀ seg ∈ splitSlash path.data, seg = ['.'] ∨ seg = ['~'] ∨ seg = [] ∨
          (seg ≠ [] ∧ ∀ c ∈ seg, filenameChar c = true)) := by
  have hrel2 : hasPrefix path.data ['/'] = false := by
    rw [← Bool.not_eq_true, hasPrefix_iff]; exact hrel
  unfold ValidatePath
  simp only [hrel2, Bool.false_and, Bool.false_eq_true, if_false]
  by_cases hc : containsSub path.data ['.', '.', '/'] = true
  · rw [if_pos hc]
    have := (containsSub_iff _ _).1 hc
    simp [this]
  · rw [if_neg hc]
    have hn : ¬ (['.', '.', '/'] <:+: path.data) := fun h => hc ((containsSub_iff _ _).2 h)
    rw [← validateParts_eq_none_iff]
    cases hv : validateParts (splitSlash path.data) with
    | some e => simp
    | none =>
      simp only [hn, not_false_eq_true, true_and, iff_true]
      split_ifs
      · have := ExtractPathAndFilename_err path
        rcases hx : ExtractPathAndFilename path with ⟨d, f, e⟩
        rw [hx] at this
        simp only at this
        subst this
        rfl
      · rfl

/-- C6 at two paths: `ValidatePath` accepts the relative path `sub_dir/file-1.bin` and
rejects `../etc/passwd`. -/
theorem ValidatePath_relative_accepts_iff_witness :
    (¬ (['/'] <+: "sub_dir/file-1.bin".data) ∧
      (ValidatePath (some "/work") (some "/home/user") "sub_dir/file-1.bin").2 = none) ∧
    (¬ (['/'] <+: "../etc/passwd".data) ∧
      (ValidatePath (some "/work") (some "/home/user") "../etc/passwd").2 ≠ none) :=
  ⟨⟨by decide,
    (ValidatePath_relative_accepts_iff "/work" "/home/user" "sub_dir/file-1.bin"
      (by decide)).2 (by decide)⟩,
   ⟨by decide, fun h =>
    ((ValidatePath_relative_accepts_iff "/work" "/home/user" "../etc/passwd"
      (by decide)).1 h).1 (by decide)⟩⟩

/-- C7: with working directory `/work` and home directory `/home/user`, `ValidatePath`
accepts the absolute path `/home/user2/file`, a sibling of the home directory that is not
under it: `strings.HasPrefix` compares characters, not path components. -/
theorem ValidatePath_accepts_sibling_of_home :
    ValidatePath (some "/work") (some "/home/user") "/home/user2/file"
      = ("Valid path. Directory: /home/user2/file", none) := by
  decide

/-- C10: `ValidatePath` accepts the paths `..` and `a/..`, whose last segment is `..`:
the escape check looks for the substring `../` only, and `..` matches the file-name
regular expression. -/
theorem ValidatePath_accepts_trailing_dotdot :
    ValidatePath (some "/work") (some "/home/user") ".." = ("Valid path. Directory: ..", none) ∧
    ValidatePath (some "/work") (some "/home/user") "a/.." =
      ("Valid path. Directory: a/..", none) := by
  decide

/-! ## Cleanup -/

theorem removePrefixed_sublist (dir prefixParts : String) (files : List DirEntry) :
    ∀ (present : List DirEntry) (removed : List String),
      (removePrefixed dir prefixParts files (present, removed)).1.Sublist present := by
  induction files with
  | nil => intro present removed; exact List.Sublist.refl _
  | cons file rest ih =>
    intro present removed
    rw [removePrefixed]
    split_ifs
    · exact (ih _ _).trans (List.filter_sublist _)
    · exact ih _ _
    · exact ih _ _

theorem removePrefixed_keeps (dir prefixParts : String) (files : List DirEntry) :
    ∀ (present : List DirEntry) (removed : List String) (e : DirEntry),
      e ∈ present → hasPrefix e.name.data prefixParts.data = false →
      e ∈ (removePrefixed dir prefixParts files (present, removed)).1 := by
  induction files with
  | nil => intro present removed e he _; exact he
  | cons file rest ih =>
    intro present removed e he hpre
    rw [removePrefixed]
    split_ifs with h1 h2
    · apply ih _ _ e _ hpre
      rw [List.mem_filter]
      refine ⟨he, ?_⟩
      have : e.name ≠ file.name := by
        intro heq
        rw [heq, h1] at hpre
        cases hpre
      simpa using this
    · exact ih _ _ e he hpre
    · exact ih _ _ e he hpre

theorem removePrefixed_removes (dir prefixParts : String) (files : List DirEntry) :
    ∀ (present : List DirEntry) (removed : List String) (e : DirEntry),
      e ∈ files → hasPrefix e.name.data prefixParts.data = true → e.removable = true →
      ∀ x ∈ (removePrefixed dir prefixParts files (present, removed)).1, x.name ≠ e.name := by
  induction files with
  | nil => intro present removed e he; cases he
  | cons file rest ih =>
    intro present removed e he hpre hrem x hx
    rw [removePrefixed] at hx
    rcases List.mem_cons.1 he with rfl | hmem
    · rw [if_pos hpre, if_pos hrem] at hx
      have hx2 := (removePrefixed_sublist dir prefixParts rest _ _).subset hx
      rw [List.mem_filter] at hx2
      simpa using hx2.2
    · split_ifs at hx
      · exact ih _ _ e hmem hpre hrem x hx
      · exact ih _ _ e hmem hpre hrem x hx
      · exact ih _ _ e hmem hpre hrem x hx

/-- C8: when the sanitized parts directory equals the sanitized application root and the
directory can be listed, `RemovePartsOrDirectory` with `keepParts = false` returns `nil`,
never calls `os.RemoveAll`, leaves every entry whose name does not start with
`prefixParts` in place, removes every entry whose name starts with it and whose removal
succeeds (whatever removals failed before it), and what remains are entries of the
listing. -/
theorem RemovePartsOrDirectory_shared_removes_only_prefixed
    (readDir : String → Option (List DirEntry)) (removeAllOk : String → Bool)
    (partsDir appRoot prefixParts : String) (listing : List DirEntry)
    (hsame : SanitizePath partsDir = SanitizePath appRoot)
    (hlist : readDir (SanitizePath partsDir) = some listing) :
    (RemovePartsOrDirectory readDir removeAllOk false partsDir appRoot prefixParts).err = none ∧
    (RemovePartsOrDirectory readDir removeAllOk false partsDir appRoot prefixParts).removeAllArg
      = none ∧
    (∀ e ∈ listing, ¬ (prefixParts.data <+: e.name.data) →
      e ∈ (RemovePartsOrDirectory readDir removeAllOk false partsDir appRoot
        prefixParts).remaining) ∧
    (∀ e ∈ listing, prefixParts.data <+: e.name.data → e.removable = true →
      e ∉ (RemovePartsOrDirectory readDir removeAllOk false partsDir appRoot
        prefixParts).remaining) ∧
    (RemovePartsOrDirectory readDir removeAllOk false partsDir appRoot
        prefixParts).remaining.Sublist listing := by
  have hres : RemovePartsOrDirectory readDir removeAllOk false partsDir appRoot prefixParts =
      { err := none, listed := some (SanitizePath partsDir),
        remaining := (removePrefixed (SanitizePath partsDir) prefixParts listing (listing, [])).1,
        removed := (removePrefixed (SanitizePath partsDir) prefixParts listing (listing, [])).2,
        removeAllArg := none } := by
    unfold RemovePartsOrDirectory
    simp only [Bool.not_false, if_true, hsame]
    rw [← hsame, hlist]
  rw [hres]
  refine ⟨rfl, rfl, ?_, ?_, ?_⟩
  · intro e he hpre
    apply removePrefixed_keeps _ _ _ _ _ _ he
    rw [← Bool.not_eq_true, hasPrefix_iff]
    exact hpre
  · intro e he hpre hrem hmem
    exact removePrefixed_removes _ _ _ _ _ e he ((hasPrefix_iff _ _).2 hpre) hrem e hmem rfl
  · exact removePrefixed_sublist _ _ _ _ _

/-- C8 on the directory of the specification: parts directory and application root are
both `/work`, which holds `part_1`, `part_2` and `notes.txt`; with prefix `part_` the
directory ends holding only `notes.txt`. -/
theorem RemovePartsOrDirectory_shared_removes_only_prefixed_witness :
    (SanitizePath "/work/" = SanitizePath "/work" ∧
      (fun d => if d = "/work" then
          some [DirEntry.mk "part_1" true, DirEntry.mk "part_2" true, DirEntry.mk "notes.txt" true]
        else none) (SanitizePath "/work/")
        = some [DirEntry.mk "part_1" true, DirEntry.mk "part_2" true,
            DirEntry.mk "notes.txt" true]) ∧
    (RemovePartsOrDirectory
        (fun d => if d = "/work" then
          some [DirEntry.mk "part_1" true, DirEntry.mk "part_2" true, DirEntry.mk "notes.txt" true]
        else none)
        (fun _ => true) false "/work/" "/work" "part_").err = none ∧
    (RemovePartsOrDirectory
        (fun d => if d = "/work" then
          some [DirEntry.mk "part_1" true, DirEntry.mk "part_2" true, DirEntry.mk "notes.txt" true]
        else none)
        (fun _ => true) false "/work/" "/work" "part_").remaining
      = [DirEntry.mk "notes.txt" true] :=
  ⟨⟨by decide, by decide⟩,
   (RemovePartsOrDirectory_shared_removes_only_prefixed
      (fun d => if d = "/work" then
          some [DirEntry.mk "part_1" true, DirEntry.mk "part_2" true, DirEntry.mk "notes.txt" true]
        else none)
      (fun _ => true) "/work/" "/work" "part_"
      [DirEntry.mk "part_1" true, DirEntry.mk "part_2" true, DirEntry.mk "notes.txt" true]
      (by decide) (by decide)).1,
   by decide⟩

/-- C9, counterexample: with `partsDir = "."` and `appRoot = "."` the shared-directory
branch runs, lists `.` and removes the entry `part_1`; the cleanup is not skipped. -/
theorem RemovePartsOrDirectory_dot_appRoot_removes :
    RemovePartsOrDirectory (fun _ => some [DirEntry.mk "part_1" true]) (fun _ => true) false
        "." "." "part_"
      = { err := none, listed := some ".", remaining := [], removed := ["part_1"],
          removeAllArg := none } := by
  decide

/-- C9, amended: when `SanitizePath appRoot` is not `"."`, `RemovePartsOrDirectory` with
`keepParts = false` and a parts directory `""`, `"."` or `"./"` lists no directory, calls
neither `os.Remove` nor `os.RemoveAll`, and returns `nil`. -/
theorem RemovePartsOrDirectory_dot_skips
    (readDir : String → Option (List DirEntry)) (removeAllOk : String → Bool)
    (partsDir appRoot prefixParts : String)
    (hdir : partsDir = "" ∨ partsDir = "." ∨ partsDir = "./")
    (hroot : SanitizePath appRoot ≠ ".") :
    RemovePartsOrDirectory readDir removeAllOk false partsDir appRoot prefixParts
      = { err := none, listed := none, remaining := [], removed := [], removeAllArg := none } := by
  have hs : SanitizePath partsDir = "." := by
    rcases hdir with rfl | rfl | rfl <;> decide
  unfold RemovePartsOrDirectory
  simp only [Bool.not_false, if_true, hs]
  rw [if_neg (fun h => hroot h.symm)]
  simp

/-- C9, amended, at `partsDir = "./"` and `appRoot = "/work/"`. -/
theorem RemovePartsOrDirectory_dot_skips_witness :
    (("./" : String) = "" ∨ ("./" : String) = "." ∨ ("./" : String) = "./") ∧
    SanitizePath "/work/" ≠ "." ∧
    RemovePartsOrDirectory (fun _ => some [DirEntry.mk "part_1" true]) (fun _ => true) false
        "./" "/work/" "part_"
      = { err := none, listed := none, remaining := [], removed := [], removeAllArg := none } :=
  ⟨by decide, by decide,
   RemovePartsOrDirectory_dot_skips (fun _ => some [DirEntry.mk "part_1" true]) (fun _ => true)
     "./" "/work/" "part_" (by decide) (by decide)⟩

/-! ## Assembly: the copy loop -/

theorem copyLoop_all_pass (numParts rangeSize size : Int) (keepParts : Bool)
    (fs : List PartFile) :
    ∀ (i : Nat) (st : AssembleResult),
      (∀ (j : Nat) (f : PartFile), fs[j]? = some f →
        failsSizeCheck numParts rangeSize size (i + j) f = false) →
      copyLoop numParts rangeSize size keepParts i fs st =
        { fatal := st.fatal,
          written := st.written ++ fs.flatMap PartFile.content,
          opened := st.opened ++ fs.map PartFile.name,
          removed := st.removed ++ (if keepParts then [] else fs.map PartFile.name) } := by
  induction fs with
  | nil =>
    intro i st _
    cases keepParts <;> simp [copyLoop]
  | cons f rest ih =>
    intro i st hpass
    have h0 := hpass 0 f (by simp)
    simp only [failsSizeCheck, Nat.add_zero, decide_eq_false_iff_not, not_or] at h0
    rw [copyLoop]
    simp only []
    rw [if_neg h0.1, if_neg h0.2]
    rw [ih (i + 1) _ (fun j g hg => by
      have := hpass (j + 1) g (by simpa using hg)
      rwa [show i + (j + 1) = i + 1 + j by omega] at this)]
    cases keepParts <;> simp [List.flatMap_cons]

theorem copyLoop_first_fail (numParts rangeSize size : Int) (keepParts : Bool)
    (pre : List PartFile) (f : PartFile) (post : List PartFile) :
    ∀ (i : Nat) (st : AssembleResult),
      (∀ (j : Nat) (g : PartFile), pre[j]? = some g →
        failsSizeCheck numParts rangeSize size (i + j) g = false) →
      failsSizeCheck numParts rangeSize size (i + pre.length) f = true →
      copyLoop numParts rangeSize size keepParts i (pre ++ f :: post) st =
        { fatal := some (sizeCheckError numParts (i + pre.length)),
          written := st.written ++ (pre ++ [f]).flatMap PartFile.content,
          opened := st.opened ++ (pre ++ [f]).map PartFile.name,
          removed := st.removed ++ (if keepParts then [] else pre.map PartFile.name) } := by
  induction pre with
  | nil =>
    intro i st _ hf
    simp only [failsSizeCheck, List.length_nil, Nat.add_zero, decide_eq_true_eq] at hf
    simp only [List.nil_append, List.length_nil, Nat.add_zero]
    rw [copyLoop]
    simp only [sizeCheckError]
    by_cases h1 : (i : Int) ≠ lastIndex numParts ∧ (f.content.length : Int) ≠ rangeSize
    · rw [if_pos h1, if_pos h1.1]
      cases keepParts <;> simp [logFatal, List.flatMap_cons]
    · rw [if_neg h1]
      have h2 : (i : Int) = lastIndex numParts ∧
          (f.content.length : Int) ≠ lastPartSize size rangeSize numParts := by
        rcases hf with h | h
        · exact absurd h h1
        · exact h
      rw [if_pos h2, if_neg (not_not.2 h2.1)]
      cases keepParts <;> simp [logFatal, List.flatMap_cons]
  | cons p pre ih =>
    intro i st hpass hf
    have h0 := hpass 0 p (by simp)
    simp only [failsSizeCheck, Nat.add_zero, decide_eq_false_iff_not, not_or] at h0
    rw [List.cons_append, copyLoop]
    simp only []
    rw [if_neg h0.1, if_neg h0.2]
    rw [ih (i + 1) _ (fun j g hg => by
      have := hpass (j + 1) g (by simpa using hg)
      rwa [show i + (j + 1) = i + 1 + j by omega] at this)
      (by rwa [show i + 1 + pre.length = i + (p :: pre).length by simp; omega])]
    have e : i + 1 + pre.length = i + (p :: pre).length := by simp; omega
    rw [e]
    cases keepParts <;> simp [List.flatMap_cons]

/-- The outcome of the copy loop over `sorted` when index `k` is the first whose file fails
the size check. -/
theorem copyLoop_stops_at_first (numParts rangeSize size : Int) (keepParts : Bool)
    (sorted : List PartFile) (k : Nat) (hk : k < sorted.length)
    (hpass : ∀ (j : Nat) (g : PartFile), j < k → sorted[j]? = some g →
      failsSizeCheck numParts rangeSize size j g = false)
    (hfail : failsSizeCheck numParts rangeSize size k sorted[k] = true) :
    copyLoop numParts rangeSize size keepParts 0 sorted
        { fatal := none, written := [], opened := [], removed := [] } =
      { fatal := some (sizeCheckError numParts k),
        written := (sorted.take (k + 1)).flatMap PartFile.content,
        opened := (sorted.take (k + 1)).map PartFile.name,
        removed := if keepParts then [] else (sorted.take k).map PartFile.name } := by
  have hsplit : sorted = sorted.take k ++ sorted[k] :: sorted.drop (k + 1) := by
    rw [← List.drop_eq_getElem_cons hk, List.take_append_drop]
  have hlen : (sorted.take k).length = k := by
    rw [List.length_take]; omega
  have htake : sorted.take (k + 1) = sorted.take k ++ [sorted[k]] := by
    rw [List.take_succ, List.getElem?_eq_getElem hk]; rfl
  have h := copyLoop_first_fail numParts rangeSize size keepParts (sorted.take k) sorted[k]
    (sorted.drop (k + 1)) 0 { fatal := none, written := [], opened := [], removed := [] }
    (fun j g hg => by
      have hj : j < k := by
        have := (List.getElem?_eq_some.1 hg).1
        rwa [hlen] at this
      rw [Nat.zero_add]
      apply hpass j g hj
      rw [List.getElem?_take] at hg
      simpa [hj] using hg)
    (by rw [hlen, Nat.zero_add]; exact hfail)
  rw [← hsplit, hlen, Nat.zero_add] at h
  rw [h, htake]
  simp

theorem exists_first_fail (numParts rangeSize size : Int) (sorted : List PartFile) (i : Nat)
    (hi : i < sorted.length)
    (hfail : failsSizeCheck numParts rangeSize size i sorted[i] = true) :
    ∃ k, k ≤ i ∧ ∃ hk : k < sorted.length,
      failsSizeCheck numParts rangeSize size k sorted[k] = true ∧
      ∀ (j : Nat) (g : PartFile), j < k → sorted[j]? = some g →
        failsSizeCheck numParts rangeSize size j g = false := by
  classical
  have hex : ∃ k, ∃ hk : k < sorted.length,
      failsSizeCheck numParts rangeSize size k sorted[k] = true := ⟨i, hi, hfail⟩
  refine ⟨Nat.find hex, Nat.find_min' hex ⟨hi, hfail⟩, (Nat.find_spec hex).1,
    (Nat.find_spec hex).2, ?_⟩
  intro j g hj hg
  have hmin := Nat.find_min hex hj
  obtain ⟨hjlen, hgeq⟩ := List.getElem?_eq_some.1 hg
  by_contra hne
  apply hmin
  refine ⟨hjlen, ?_⟩
  rw [hgeq]
  simpa using hne

/-- The copy loop run from the start either passes every size check and copies every file,
or stops at the first index whose file fails the check. -/
theorem copyLoop_outcome (numParts rangeSize size : Int) (keepParts : Bool)
    (sorted : List PartFile) :
    ((∀ (j : Nat) (g : PartFile), sorted[j]? = some g →
        failsSizeCheck numParts rangeSize size j g = false) ∧
      copyLoop numParts rangeSize size keepParts 0 sorted
          { fatal := none, written := [], opened := [], removed := [] } =
        { fatal := none,
          written := sorted.flatMap PartFile.content,
          opened := sorted.map PartFile.name,
          removed := if keepParts then [] else sorted.map PartFile.name }) ∨
    (∃ k, ∃ hk : k < sorted.length,
      failsSizeCheck numParts rangeSize size k sorted[k] = true ∧
      (∀ (j : Nat) (g : PartFile), j < k → sorted[j]? = some g →
        failsSizeCheck numParts rangeSize size j g = false) ∧
      copyLoop numParts rangeSize size keepParts 0 sorted
          { fatal := none, written := [], opened := [], removed := [] } =
        { fatal := some (sizeCheckError numParts k),
          written := (sorted.take (k + 1)).flatMap PartFile.content,
          opened := (sorted.take (k + 1)).map PartFile.name,
          removed := if keepParts then [] else (sorted.take k).map PartFile.name }) := by
  by_cases hall : ∀ (j : Nat) (g : PartFile), sorted[j]? = some g →
      failsSizeCheck numParts rangeSize size j g = false
  · left
    refine ⟨hall, ?_⟩
    rw [copyLoop_all_pass numParts rangeSize size keepParts sorted 0 _
      (fun j g hg => by rw [Nat.zero_add]; exact hall j g hg)]
    simp
  · right
    push_neg at hall
    obtain ⟨i, g, hg, hfail⟩ := hall
    obtain ⟨hi, hgeq⟩ := List.getElem?_eq_some.1 hg
    have hfail2 : failsSizeCheck numParts rangeSize size i sorted[i] = true := by
      rw [hgeq]; simpa using hfail
    obtain ⟨k, _, hk, hkfail, hkmin⟩ :=
      exists_first_fail numParts rangeSize size sorted i hi hfail2
    exact ⟨k, hk, hkfail, hkmin,
      copyLoop_stops_at_first numParts rangeSize size keepParts sorted k hk hkmin hkfail⟩

/-! ## Assembly: size checks -/

/-- C4: let `sorted` be the list the copy loop iterates (the globbed files after
`sort.Slice`). If the file at index `i` fails its size check (`i` is not `numParts-1` and
the file does not hold `rangeSize` bytes, or `i` is `numParts-1` and the file does not hold
`size - rangeSize*(numParts-1)` bytes, both computed as the code computes them), then
`AssembleFileFromParts` ends with a fatal error at an index `k ≤ i`, with `k = i` when
every file before `i` passes its check: the files opened and copied are exactly those at
indices `0..k`, the files removed (when `keepParts` is false) exactly those at indices
`0..k-1`, so no file after index `i` is opened, copied or removed. -/
theorem AssembleFileFromParts_stops_at_bad_part
    (sortSlice : (PartFile → PartFile → Bool) → List PartFile → List PartFile)
    (sha : List UInt8 → String) (m : DownloadManifest) (files : List PartFile)
    (numParts rangeSize size : Int) (keepParts : Bool)
    (sorted : List PartFile) (hsorted : sorted = sortSlice (lessByManifest sha m) files)
    (i : Nat) (hi : i < sorted.length)
    (hbad : ((i : Int) ≠ lastIndex numParts ∧ (sorted[i].content.length : Int) ≠ rangeSize) ∨
      ((i : Int) = lastIndex numParts ∧
        (sorted[i].content.length : Int) ≠ lastPartSize size rangeSize numParts)) :
    ∃ k, k ≤ i ∧
      ((∀ (j : Nat) (g : PartFile), j < i → sorted[j]? = some g →
          failsSizeCheck numParts rangeSize size j g = false) → k = i) ∧
      AssembleFileFromParts sortSlice sha m files numParts rangeSize size keepParts =
        { fatal := some (sizeCheckError numParts k),
          written := (sorted.take (k + 1)).flatMap PartFile.content,
          opened := (sorted.take (k + 1)).map PartFile.name,
          removed := if keepParts then [] else (sorted.take k).map PartFile.name } := by
  have hfail : failsSizeCheck numParts rangeSize size i sorted[i] = true := by
    simpa [failsSizeCheck] using hbad
  obtain ⟨k, hki, hk, hkfail, hkmin⟩ :=
    exists_first_fail numParts rangeSize size sorted i hi hfail
  refine ⟨k, hki, ?_, ?_⟩
  · intro hbefore
    by_contra hne
    have hlt : k < i := lt_of_le_of_ne hki hne
    have := hbefore k sorted[k] hlt (List.getElem?_eq_getElem hk)
    rw [hkfail] at this
    cases this
  · unfold AssembleFileFromParts
    simp only []
    rw [← hsorted]
    exact copyLoop_stops_at_first numParts rangeSize size keepParts sorted k hk hkmin hkfail

/-- C4 on three parts of which the second is truncated to five bytes (`rangeSize = 8`,
`size = 24`, `numParts = 3`): the process stops at index 1; the first two files were
opened and copied, only the first was removed, the third was not touched. -/
theorem AssembleFileFromParts_stops_at_bad_part_witness :
    ([part1, part2Truncated, part3] =
        insertionSortLess (lessByManifest exampleHash truncatedManifest)
          [part3, part2Truncated, part1] ∧
      1 < [part1, part2Truncated, part3].length ∧
      (((1 : Nat) : Int) ≠ lastIndex 3 ∧
        ((part2Truncated.content.length : Nat) : Int) ≠ 8)) ∧
    ∃ k, k ≤ 1 ∧
      ((∀ (j : Nat) (g : PartFile), j < 1 → [part1, part2Truncated, part3][j]? = some g →
          failsSizeCheck 3 8 24 j g = false) → k = 1) ∧
      AssembleFileFromParts insertionSortLess exampleHash truncatedManifest
          [part3, part2Truncated, part1] 3 8 24 false =
        { fatal := some (sizeCheckError 3 k),
          written := ([part1, part2Truncated, part3].take (k + 1)).flatMap PartFile.content,
          opened := ([part1, part2Truncated, part3].take (k + 1)).map PartFile.name,
          removed := if false then [] else ([part1, part2Truncated, part3].take k).map
            PartFile.name } :=
  ⟨⟨by decide, by decide, by decide, by decide⟩,
   AssembleFileFromParts_stops_at_bad_part insertionSortLess exampleHash truncatedManifest
     [part3, part2Truncated, part1] 3 8 24 false [part1, part2Truncated, part3]
     (by decide) 1 (by decide) (Or.inl ⟨by decide, by decide⟩)⟩

/-! ## `sort.Slice`: Go's insertion sort meets the contract -/

theorem insertRev_perm {α : Type} (less : α → α → Bool) (x : α) (l : List α) :
    (insertRev less x l).Perm (x :: l) := by
  induction l with
  | nil => exact List.Perm.refl _
  | cons y rest ih =>
    rw [insertRev]
    split_ifs
    · exact (List.Perm.cons y ih).trans (List.Perm.swap x y rest)
    · exact List.Perm.refl _

theorem insertRev_descending (key : PartFile → Int) (x : PartFile) (l : List PartFile)
    (hl : l.Pairwise (fun a b => key b ≤ key a)) :
    (insertRev (fun a b => decide (key a < key b)) x l).Pairwise
      (fun a b => key b ≤ key a) := by
  induction l with
  | nil => simp [insertRev]
  | cons y rest ih =>
    rw [List.pairwise_cons] at hl
    rw [insertRev]
    by_cases hxy : key x < key y
    · simp only [hxy, decide_True, if_true]
      rw [List.pairwise_cons]
      refine ⟨?_, ih hl.2⟩
      intro z hz
      rcases List.mem_cons.1 ((insertRev_perm _ x rest).subset hz) with rfl | hzr
      · exact le_of_lt hxy
      · exact hl.1 z hzr
    · simp only [hxy, decide_False, Bool.false_eq_true, if_false]
      rw [List.pairwise_cons, List.pairwise_cons]
      refine ⟨?_, hl⟩
      intro z hz
      rcases List.mem_cons.1 hz with rfl | hzr
      · exact not_lt.1 hxy
      · exact le_trans (hl.1 z hzr) (not_lt.1 hxy)

theorem foldl_insertRev (key : PartFile → Int) (data : List PartFile) :
    ∀ (acc : List PartFile), acc.Pairwise (fun a b => key b ≤ key a) →
      (data.foldl (fun sortedRev x => insertRev (fun a b => decide (key a < key b)) x sortedRev)
          acc).Pairwise (fun a b => key b ≤ key a) ∧
      (data.foldl (fun sortedRev x => insertRev (fun a b => decide (key a < key b)) x sortedRev)
          acc).Perm (data ++ acc) := by
  induction data with
  | nil => intro acc h; exact ⟨h, List.Perm.refl _⟩
  | cons x rest ih =>
    intro acc h
    rw [List.foldl_cons]
    obtain ⟨h1, h2⟩ := ih _ (insertRev_descending key x acc h)
    refine ⟨h1, h2.trans ?_⟩
    refine ((List.Perm.append_left rest (insertRev_perm _ x acc)).trans ?_)
    simp only [List.cons_append]
    exact List.perm_middle

/-- Go's insertion sort meets the contract of `sort.Slice`. -/
theorem insertionSortLess_sortsByKey : SortsByKey insertionSortLess := by
  intro key l
  obtain ⟨h1, h2⟩ := foldl_insertRev key l [] List.Pairwise.nil
  unfold insertionSortLess
  constructor
  · refine (List.reverse_perm _).trans ?_
    simpa using h2
  · rw [List.pairwise_reverse]
    exact h1

/-! ## Assembly: files and manifest that do not match -/

theorem partNumberLoop_no_match (hash : String) (parts : List DownloadedPart) :
    ∀ (num : Int), (∀ p ∈ parts, p.FileHash ≠ hash) → partNumberLoop hash parts num = num := by
  induction parts with
  | nil => intro num _; rfl
  | cons p rest ih =>
    intro num h
    rw [partNumberLoop, if_neg (h p (List.mem_cons_self _ _))]
    exact ih num (fun q hq => h q (List.mem_cons_of_mem _ hq))

/-- C2, counterexample: the stray file, whose hash is in no manifest entry, is sorted first
and copied together with parts 2 and 3; the call ends without a fatal error after writing
24 bytes that begin with the stray file's. -/
theorem AssembleFileFromParts_copies_unknown_file :
    (∀ p ∈ exampleManifest.DownloadedParts, p.FileHash ≠ exampleHash strayFile.content) ∧
    AssembleFileFromParts insertionSortLess exampleHash exampleManifest
        [part3, strayFile, part2] 3 8 24 false =
      { fatal := none,
        written := asciiBytes "unknown!content2content3",
        opened := ["output-stray", "output-a", "output-b"],
        removed := ["output-stray", "output-a", "output-b"] } := by
  decide

theorem partNumberLoop_of_match (hash : String) (parts : List DownloadedPart) :
    ∀ (num : Int), (∃ p ∈ parts, p.FileHash = hash) →
      ∃ q ∈ parts, partNumberLoop hash parts num = q.PartNumber := by
  induction parts with
  | nil => intro num h; obtain ⟨p, hp, _⟩ := h; cases hp
  | cons a rest ih =>
    intro num h
    rw [partNumberLoop]
    by_cases hrest : ∃ p ∈ rest, p.FileHash = hash
    · obtain ⟨q, hq, heq⟩ := ih (if a.FileHash = hash then a.PartNumber else num) hrest
      exact ⟨q, List.mem_cons_of_mem _ hq, heq⟩
    · have hno : ∀ p ∈ rest, p.FileHash ≠ hash := fun p hp heq => hrest ⟨p, hp, heq⟩
      obtain ⟨p, hp, hph⟩ := h
      have ha : a.FileHash = hash := by
        rcases List.mem_cons.1 hp with rfl | hpr
        · exact hph
        · exact absurd hph (hno p hpr)
      rw [partNumberLoop_no_match hash rest _ hno, if_pos ha]
      exact ⟨a, List.mem_cons_self _ _, rfl⟩

/-- C2, amended: `AssembleFileFromParts` has no check for files unknown to the manifest.
When some globbed file's hash is in no manifest entry, every such file gets part number
`-1` in the comparator and is sorted and copied like the others; the call ends with a
fatal error only if some file of the sorted list fails the size check of its index; in
every case the first file of the sorted list has been opened and written to the
destination in full; and when `sort.Slice` meets its contract and no part number of the
manifest is negative, that first file is one unknown to the manifest. -/
theorem AssembleFileFromParts_unknown_file_not_detected
    (sortSlice : (PartFile → PartFile → Bool) → List PartFile → List PartFile)
    (sha : List UInt8 → String) (m : DownloadManifest) (files : List PartFile)
    (numParts rangeSize size : Int) (keepParts : Bool)
    (sorted : List PartFile) (hsorted : sorted = sortSlice (lessByManifest sha m) files)
    (hunknown : ∃ u ∈ files, ∀ p ∈ m.DownloadedParts, p.FileHash ≠ sha u.content) :
    (∀ u ∈ files, (∀ p ∈ m.DownloadedParts, p.FileHash ≠ sha u.content) →
      partNumberOf sha m u = -1) ∧
    ((AssembleFileFromParts sortSlice sha m files numParts rangeSize size keepParts).fatal
        ≠ none →
      ∃ (k : Nat) (g : PartFile), sorted[k]? = some g ∧
        failsSizeCheck numParts rangeSize size k g = true) ∧
    (∀ first, sorted.head? = some first →
      first.content <+:
        (AssembleFileFromParts sortSlice sha m files numParts rangeSize size keepParts).written ∧
      [first.name] <+:
        (AssembleFileFromParts sortSlice sha m files numParts rangeSize size keepParts).opened) ∧
    (SortsByKey sortSlice → (∀ p ∈ m.DownloadedParts, 0 ≤ p.PartNumber) →
      ∃ first, sorted.head? = some first ∧
        ∀ p ∈ m.DownloadedParts, p.FileHash ≠ sha first.content) := by
  have hres : AssembleFileFromParts sortSlice sha m files numParts rangeSize size keepParts =
      copyLoop numParts rangeSize size keepParts 0 sorted
        { fatal := none, written := [], opened := [], removed := [] } := by
    unfold AssembleFileFromParts
    simp only []
    rw [← hsorted]
  have hkey : ∀ u, (∀ p ∈ m.DownloadedParts, p.FileHash ≠ sha u.content) →
      partNumberOf sha m u = -1 := by
    intro u hu
    unfold partNumberOf
    exact partNumberLoop_no_match _ _ _ hu
  rw [hres]
  refine ⟨fun u _ hu => hkey u hu, ?_, ?_, ?_⟩
  · intro hfatal
    rcases copyLoop_outcome numParts rangeSize size keepParts sorted with ⟨_, h⟩ | ⟨k, hk, hf, _, _⟩
    · rw [h] at hfatal
      exact absurd rfl hfatal
    · exact ⟨k, sorted[k], List.getElem?_eq_getElem hk, hf⟩
  · intro first hfirst
    obtain ⟨tl, htl⟩ : ∃ tl, sorted = first :: tl := by
      cases sorted with
      | nil => cases hfirst
      | cons a tl => exact ⟨tl, by simp at hfirst; rw [hfirst]⟩
    rcases copyLoop_outcome numParts rangeSize size keepParts sorted with ⟨_, h⟩ | ⟨k, _, _, _, h⟩
    · rw [h, htl]
      simp only [List.flatMap_cons, List.map_cons]
      exact ⟨List.prefix_append _ _, by simp⟩
    · rw [h, htl]
      simp only [List.take_succ_cons, List.flatMap_cons, List.map_cons]
      exact ⟨List.prefix_append _ _, by simp⟩
  · intro hsort hnum
    obtain ⟨u, hu, hunk⟩ := hunknown
    obtain ⟨hperm, hle⟩ := hsort (partNumberOf sha m) files
    have hless : lessByManifest sha m =
        fun a b => decide (partNumberOf sha m a < partNumberOf sha m b) := rfl
    rw [← hless, ← hsorted] at hperm hle
    have humem : u ∈ sorted := hperm.symm.subset hu
    cases hs : sorted with
    | nil => rw [hs] at humem; cases humem
    | cons first tl =>
      refine ⟨first, rfl, ?_⟩
      rw [hs] at humem hle
      rcases List.mem_cons.1 humem with rfl | htl
      · exact hunk
      · intro p hp heq
        have h1 : partNumberOf sha m first ≤ partNumberOf sha m u :=
          (List.pairwise_cons.1 hle).1 u htl
        rw [hkey u hunk] at h1
        obtain ⟨q, hq, hqeq⟩ := partNumberLoop_of_match (sha first.content) m.DownloadedParts
          (-1) ⟨p, hp, heq⟩
        have h2 := hnum q hq
        unfold partNumberOf at h1
        rw [hqeq] at h1
        omega

/-- C2, amended, on the counterexample's files: the stray file has part number `-1`, is
the first of the sorted list, and its bytes are in the destination. -/
theorem AssembleFileFromParts_unknown_file_not_detected_witness :
    ([strayFile, part2, part3] =
        insertionSortLess (lessByManifest exampleHash exampleManifest)
          [part3, strayFile, part2] ∧
      ∃ u ∈ [part3, strayFile, part2],
        ∀ p ∈ exampleManifest.DownloadedParts, p.FileHash ≠ exampleHash u.content) ∧
    partNumberOf exampleHash exampleManifest strayFile = -1 ∧
    strayFile.content <+:
      (AssembleFileFromParts insertionSortLess exampleHash exampleManifest
        [part3, strayFile, part2] 3 8 24 false).written ∧
    (∃ first, [strayFile, part2, part3].head? = some first ∧
      ∀ p ∈ exampleManifest.DownloadedParts, p.FileHash ≠ exampleHash first.content) :=
  ⟨⟨by decide, by decide⟩,
   (AssembleFileFromParts_unknown_file_not_detected insertionSortLess exampleHash
      exampleManifest [part3, strayFile, part2] 3 8 24 false [strayFile, part2, part3]
      (by decide) (by decide)).1 strayFile (by decide) (by decide),
   ((AssembleFileFromParts_unknown_file_not_detected insertionSortLess exampleHash
      exampleManifest [part3, strayFile, part2] 3 8 24 false [strayFile, part2, part3]
      (by decide) (by decide)).2.2.1 strayFile rfl).1,
   (AssembleFileFromParts_unknown_file_not_detected insertionSortLess exampleHash
      exampleManifest [part3, strayFile, part2] 3 8 24 false [strayFile, part2, part3]
      (by decide) (by decide)).2.2.2 insertionSortLess_sortsByKey (by decide)⟩

/-- C3, counterexample: the manifest has three parts, only the files of parts 1 and 2 are
found, and `numParts = 3`; the call ends without a fatal error after writing 16 of the 24
bytes. -/
theorem AssembleFileFromParts_completes_with_missing_part :
    (∀ f ∈ [part2, part1], exampleHash f.content ≠ exampleHash (asciiBytes "content3")) ∧
    AssembleFileFromParts insertionSortLess exampleHash exampleManifest
        [part2, part1] 3 8 24 false =
      { fatal := none,
        written := asciiBytes "content1content2",
        opened := ["output-c", "output-a"],
        removed := ["output-c", "output-a"] } := by
  decide

/-- C3, amended: `AssembleFileFromParts` has no check for manifest entries without a file.
When some manifest entry's hash is the hash of no globbed file, the call ends without a
fatal error if and only if every file of the sorted list passes the size check of its
index (the last-part check applies only to a file at index `numParts-1`), and then the
destination holds exactly the found files in sorted order. -/
theorem AssembleFileFromParts_missing_part_not_detected
    (sortSlice : (PartFile → PartFile → Bool) → List PartFile → List PartFile)
    (sha : List UInt8 → String) (m : DownloadManifest) (files : List PartFile)
    (numParts rangeSize size : Int) (keepParts : Bool)
    (sorted : List PartFile) (hsorted : sorted = sortSlice (lessByManifest sha m) files)
    (_hmissing : ∃ p ∈ m.DownloadedParts, ∀ f ∈ files, sha f.content ≠ p.FileHash) :
    ((AssembleFileFromParts sortSlice sha m files numParts rangeSize size keepParts).fatal
        = none ↔
      ∀ (j : Nat) (g : PartFile), sorted[j]? = some g →
        failsSizeCheck numParts rangeSize size j g = false) ∧
    ((AssembleFileFromParts sortSlice sha m files numParts rangeSize size keepParts).fatal
        = none →
      (AssembleFileFromParts sortSlice sha m files numParts rangeSize size keepParts).written
        = sorted.flatMap PartFile.content) := by
  have hres : AssembleFileFromParts sortSlice sha m files numParts rangeSize size keepParts =
      copyLoop numParts rangeSize size keepParts 0 sorted
        { fatal := none, written := [], opened := [], removed := [] } := by
    unfold AssembleFileFromParts
    simp only []
    rw [← hsorted]
  rw [hres]
  rcases copyLoop_outcome numParts rangeSize size keepParts sorted with
    ⟨hall, h⟩ | ⟨k, hk, hf, _, h⟩
  · rw [h]
    exact ⟨⟨fun _ => hall, fun _ => rfl⟩, fun _ => rfl⟩
  · rw [h]
    refine ⟨⟨fun hnone => (by cases hnone), fun hall => ?_⟩, fun hnone => (by cases hnone)⟩
    have := hall k sorted[k] (List.getElem?_eq_getElem hk)
    rw [hf] at this
    cases this

/-- C3, amended, on the counterexample's files: what was written is the two found files. -/
theorem AssembleFileFromParts_missing_part_not_detected_witness :
    ([part1, part2] =
        insertionSortLess (lessByManifest exampleHash exampleManifest) [part2, part1] ∧
      ∃ p ∈ exampleManifest.DownloadedParts,
        ∀ f ∈ [part2, part1], exampleHash f.content ≠ p.FileHash) ∧
    (AssembleFileFromParts insertionSortLess exampleHash exampleManifest
        [part2, part1] 3 8 24 false).written = [part1, part2].flatMap PartFile.content :=
  ⟨⟨by decide, by decide⟩,
   (AssembleFileFromParts_missing_part_not_detected insertionSortLess exampleHash
      exampleManifest [part2, part1] 3 8 24 false [part1, part2]
      (by decide) (by decide)).2 (by decide)⟩

/-! ## Assembly: ordering by part number -/

theorem partNumberLoop_unique (hash : String) (parts : List DownloadedPart) :
    ∀ (num : Int) (p : DownloadedPart), (parts.map DownloadedPart.FileHash).Nodup →
      p ∈ parts → p.FileHash = hash → partNumberLoop hash parts num = p.PartNumber := by
  induction parts with
  | nil => intro num p _ hp; cases hp
  | cons q rest ih =>
    intro num p hnodup hp hhash
    rw [List.map_cons, List.nodup_cons] at hnodup
    rw [partNumberLoop]
    by_cases hq : q.FileHash = hash
    · rw [if_pos hq]
      have hrest : ∀ r ∈ rest, r.FileHash ≠ hash := by
        intro r hr heq
        apply hnodup.1
        rw [hq, ← heq]
        exact List.mem_map_of_mem _ hr
      rw [partNumberLoop_no_match hash rest _ hrest]
      rcases List.mem_cons.1 hp with rfl | hpr
      · rfl
      · exact absurd hhash (hrest p hpr)
    · rw [if_neg hq]
      rcases List.mem_cons.1 hp with rfl | hpr
      · exact absurd hhash hq
      · exact ih _ p hnodup.2 hpr hhash

theorem wrapInt64_of_inRange (x : Int) (h1 : -2 ^ 63 ≤ x) (h2 : x < 2 ^ 63) :
    wrapInt64 x = x := by
  unfold wrapInt64
  norm_num at h1 h2 ⊢
  omega

theorem wrapInt64_sub_wrapInt64 (a b : Int) : wrapInt64 (a - wrapInt64 b) = wrapInt64 (a - b) := by
  unfold wrapInt64
  norm_num
  omega

theorem length_flatMap_const (r : Int) (l : List PartFile)
    (h : ∀ f ∈ l, (f.content.length : Int) = r) :
    ((l.flatMap PartFile.content).length : Int) = r * l.length := by
  induction l with
  | nil => simp
  | cons f rest ih =>
    rw [List.flatMap_cons, List.length_append, List.length_cons]
    push_cast
    rw [ih (fun g hg => h g (List.mem_cons_of_mem _ hg)), h f (List.mem_cons_self _ _)]
    ring

theorem lastIndex_of_count (N : Nat) (hN : 1 ≤ N) (hNint : (N : Int) < 2 ^ 63) :
    lastIndex (N : Int) = (N : Int) - 1 := by
  unfold lastIndex
  apply wrapInt64_of_inRange
  · have : (0 : Int) ≤ (N : Int) - 1 := by omega
    have h2 : (-2 : Int) ^ 63 ≤ 0 := by norm_num
    norm_num
    omega
  · omega

/-- For a positive number of parts below `2^63` and an expected last size that fits in
64 bits, the code's expression for the last part's size is
`size - rangeSize*(numParts-1)`. -/
theorem lastPartSize_eq (size rangeSize : Int) (N : Nat) (hN : 1 ≤ N)
    (hNint : (N : Int) < 2 ^ 63)
    (h1 : -2 ^ 63 ≤ size - rangeSize * ((N : Int) - 1))
    (h2 : size - rangeSize * ((N : Int) - 1) < 2 ^ 63) :
    lastPartSize size rangeSize (N : Int) = size - rangeSize * ((N : Int) - 1) := by
  unfold lastPartSize
  rw [lastIndex_of_count N hN hNint, wrapInt64_sub_wrapInt64]
  exact wrapInt64_of_inRange _ h1 h2

/-- C1: let the manifest's file hashes be pairwise distinct, let `ordered` be `N ≥ 1` part
files in ascending part order (the hash of `ordered[k]` is the `FileHash` of a manifest
entry numbered `k+1`), where every part but the last holds `rangeSize` bytes and the last
holds `size - rangeSize*(N-1)` bytes, and let `files` be any enumeration (permutation) of
them under any names. Then for every `sort.Slice` meeting its contract,
`AssembleFileFromParts` with `numParts = N` ends without a fatal error, having opened and
copied the files in part order: the bytes written are the concatenation of
`ordered`, of length `size`. `N` and `size` are values of Go's `int`; the manifest may
hold further entries, whose hashes then belong to none of the files. -/
theorem AssembleFileFromParts_assembles_in_part_order
    (sortSlice : (PartFile → PartFile → Bool) → List PartFile → List PartFile)
    (hsort : SortsByKey sortSlice)
    (sha : List UInt8 → String) (m : DownloadManifest) (N : Nat)
    (ordered files : List PartFile) (rangeSize size : Int) (keepParts : Bool)
    (hN : 1 ≤ N) (hNint : (N : Int) < 2 ^ 63) (hsizeInt : size < 2 ^ 63)
    (hdistinct : (m.DownloadedParts.map DownloadedPart.FileHash).Nodup)
    (hlen : ordered.length = N)
    (hmatch : ∀ (k : Nat) (hk : k < ordered.length), ∃ p ∈ m.DownloadedParts,
      p.PartNumber = (k : Int) + 1 ∧ p.FileHash = sha ordered[k].content)
    (hglob : files.Perm ordered)
    (hrange : ∀ (k : Nat) (hk : k < ordered.length), k + 1 < N →
      (ordered[k].content.length : Int) = rangeSize)
    (hlast : ∀ (hk : N - 1 < ordered.length),
      (ordered[N - 1].content.length : Int) = size - rangeSize * ((N : Int) - 1)) :
    AssembleFileFromParts sortSlice sha m files (N : Int) rangeSize size keepParts =
        { fatal := none,
          written := ordered.flatMap PartFile.content,
          opened := ordered.map PartFile.name,
          removed := if keepParts then [] else ordered.map PartFile.name } ∧
      ((ordered.flatMap PartFile.content).length : Int) = size := by
  -- the comparator's key of the k-th part is k+1
  have hkey : ∀ (k : Nat) (hk : k < ordered.length),
      partNumberOf sha m ordered[k] = (k : Int) + 1 := by
    intro k hk
    obtain ⟨p, hp, hnum, hhash⟩ := hmatch k hk
    unfold partNumberOf
    rw [partNumberLoop_unique _ _ _ p hdistinct hp hhash, hnum]
  have hordered : ordered.Pairwise
      (fun a b => partNumberOf sha m a < partNumberOf sha m b) := by
    rw [List.pairwise_iff_getElem]
    intro i j hi hj hij
    rw [hkey i hi, hkey j hj]
    omega
  -- the sorted slice is `ordered`
  obtain ⟨hperm, hle⟩ := hsort (partNumberOf sha m) files
  have hless : lessByManifest sha m =
      fun a b => decide (partNumberOf sha m a < partNumberOf sha m b) := rfl
  have hperm2 : (sortSlice (lessByManifest sha m) files).Perm ordered := by
    rw [hless]; exact hperm.trans hglob
  have hne : (sortSlice (lessByManifest sha m) files).Pairwise
      (fun a b => partNumberOf sha m a ≠ partNumberOf sha m b) := by
    refine (List.Perm.pairwise_iff ?_ hperm2).2 (hordered.imp (fun h => ne_of_lt h))
    intro a b h
    exact h.symm
  have hlt : (sortSlice (lessByManifest sha m) files).Pairwise
      (fun a b => partNumberOf sha m a < partNumberOf sha m b) := by
    rw [hless] at hne ⊢
    exact (hle.and hne).imp (fun h => lt_of_le_of_ne h.1 h.2)
  haveI : IsAntisymm PartFile (fun a b => partNumberOf sha m a < partNumberOf sha m b) :=
    ⟨fun a b h1 h2 => absurd h1 (not_lt.2 (le_of_lt h2))⟩
  have hsorted : sortSlice (lessByManifest sha m) files = ordered :=
    List.eq_of_perm_of_sorted hperm2 hlt hordered
  -- every part passes its size check
  have hlastIdx := lastIndex_of_count N hN hNint
  have hrs : 2 ≤ N → 0 ≤ rangeSize := by
    intro h2
    have := hrange 0 (by omega) (by omega)
    rw [← this]
    exact Int.natCast_nonneg _
  have hlastSize : ∀ (hk : N - 1 < ordered.length),
      lastPartSize size rangeSize (N : Int) = (ordered[N - 1].content.length : Int) := by
    intro hk
    unfold lastPartSize
    rw [hlastIdx, wrapInt64_sub_wrapInt64, ← hlast hk]
    apply wrapInt64_of_inRange
    · have : (0 : Int) ≤ (ordered[N - 1].content.length : Int) := Int.natCast_nonneg _
      norm_num
      omega
    · rw [hlast hk]
      by_cases h2 : 2 ≤ N
      · have hmul : 0 ≤ rangeSize * ((N : Int) - 1) :=
          mul_nonneg (hrs h2) (by omega)
        omega
      · have h1 : N = 1 := by omega
        subst h1
        simpa using hsizeInt
  have hpass : ∀ (j : Nat) (g : PartFile), ordered[j]? = some g →
      failsSizeCheck (N : Int) rangeSize size (0 + j) g = false := by
    intro j g hg
    obtain ⟨hj, rfl⟩ := List.getElem?_eq_some.1 hg
    rw [Nat.zero_add]
    simp only [failsSizeCheck, decide_eq_false_iff_not, not_or, not_and, not_not, hlastIdx]
    by_cases hjl : j + 1 < N
    · refine ⟨fun _ => hrange j hj hjl, fun h => ?_⟩
      omega
    · have hjeq : j = N - 1 := by omega
      subst hjeq
      refine ⟨fun h => ?_, fun _ => (hlastSize hj).symm⟩
      exfalso
      apply h
      omega
  refine ⟨?_, ?_⟩
  · unfold AssembleFileFromParts
    simp only []
    rw [hsorted, copyLoop_all_pass (N : Int) rangeSize size keepParts ordered 0 _ hpass]
    simp
  · -- the written length
    have hk : N - 1 < ordered.length := by omega
    have hsplit : ordered = ordered.take (N - 1) ++ [ordered[N - 1]] := by
      have h1 : ordered.take (N - 1 + 1) = ordered.take (N - 1) ++ [ordered[N - 1]] := by
        rw [List.take_succ, List.getElem?_eq_getElem hk]; rfl
      rw [← h1]
      exact (List.take_of_length_le (by omega)).symm
    have hinit : ∀ f ∈ ordered.take (N - 1), (f.content.length : Int) = rangeSize := by
      intro f hf
      obtain ⟨k, hk2, rfl⟩ := List.mem_iff_getElem.1 hf
      have hk3 : k < N - 1 := by
        rw [List.length_take] at hk2; omega
      rw [List.getElem_take]
      exact hrange k (by omega) (by omega)
    have hsum := length_flatMap_const rangeSize (ordered.take (N - 1)) hinit
    have htl : ((ordered.take (N - 1)).length : Int) = (N : Int) - 1 := by
      rw [List.length_take]
      omega
    rw [hsplit, List.flatMap_append, List.length_append]
    push_cast
    rw [hsum, htl]
    simp only [List.flatMap_cons, List.flatMap_nil, List.append_nil]
    rw [hlast hk]
    ring

/-- C1 on the three parts of the repository's test (`content1`, `content2`, `content3`,
`rangeSize = 8`, `size = 24`), enumerated out of order under names that sort differently:
the destination receives `content1content2content3`. -/
theorem AssembleFileFromParts_assembles_in_part_order_witness :
    (1 ≤ 3 ∧ ((3 : Nat) : Int) < 2 ^ 63 ∧ (24 : Int) < 2 ^ 63 ∧
      (exampleManifest.DownloadedParts.map DownloadedPart.FileHash).Nodup ∧
      [part1, part2, part3].length = 3 ∧
      (∀ (k : Nat) (hk : k < [part1, part2, part3].length),
        ∃ p ∈ exampleManifest.DownloadedParts,
          p.PartNumber = (k : Int) + 1 ∧
          p.FileHash = exampleHash [part1, part2, part3][k].content) ∧
      [part3, part1, part2].Perm [part1, part2, part3]) ∧
    (AssembleFileFromParts insertionSortLess exampleHash exampleManifest
        [part3, part1, part2] ((3 : Nat) : Int) 8 24 false).fatal = none ∧
    (AssembleFileFromParts insertionSortLess exampleHash exampleManifest
        [part3, part1, part2] ((3 : Nat) : Int) 8 24 false).written
      = asciiBytes "content1content2content3" :=
  have h := AssembleFileFromParts_assembles_in_part_order insertionSortLess
    insertionSortLess_sortsByKey exampleHash exampleManifest 3 [part1, part2, part3]
    [part3, part1, part2] 8 24 false (by decide) (by decide) (by decide) (by decide)
    (by decide) (by decide) (by decide) (by decide) (by decide)
  ⟨⟨by decide, by decide, by decide, by decide, by decide, by decide, by decide⟩,
   by rw [h.1], by rw [h.1]; decide⟩

/-! ## `filepath.Clean`: the character loop and the element-wise reading agree -/

theorem joinSlash_cons_cons (a b : List Char) (rest : List (List Char)) :
    joinSlash (a :: b :: rest) = a ++ '/' :: joinSlash (b :: rest) := rfl

theorem joinSlash_append_singleton (L : List (List Char)) (e : List Char) :
    joinSlash (L ++ [e]) = if L = [] then e else joinSlash L ++ '/' :: e := by
  induction L with
  | nil => simp [joinSlash]
  | cons a rest ih =>
    cases rest with
    | nil => simp [joinSlash]
    | cons b rest2 =>
      rw [List.cons_append, List.cons_append, joinSlash_cons_cons, ← List.cons_append, ih]
      simp [joinSlash_cons_cons]

theorem splitSlash_ne_nil (l : List Char) : splitSlash l ≠ [] := by
  cases l with
  | nil => simp [splitSlash]
  | cons c cs =>
    rw [splitSlash]
    split_ifs
    · simp
    · split <;> simp

theorem splitSlash_cons_of_ne (c : Char) (cs : List Char) (hc : c ≠ '/') :
    splitSlash (c :: cs) = (c :: (splitSlash cs).headD []) :: (splitSlash cs).tail := by
  rw [splitSlash, if_neg hc]
  cases h : splitSlash cs with
  | nil => exact absurd h (splitSlash_ne_nil cs)
  | cons s ss => rfl

theorem splitSlash_eq_takeWhile_cons (l : List Char) :
    splitSlash l = l.takeWhile (fun x => x != '/') ::
      (match l.dropWhile (fun x => x != '/') with
        | [] => []
        | _ :: r => splitSlash r) := by
  induction l with
  | nil => simp [splitSlash]
  | cons c cs ih =>
    by_cases hc : c = '/'
    · subst hc
      simp [splitSlash]
    · rw [splitSlash_cons_of_ne c cs hc, ih]
      have h1 : (c != '/') = true := by simpa using hc
      simp [List.takeWhile_cons, List.dropWhile_cons, h1]

theorem splitSlash_no_sep (l : List Char) : ∀ seg ∈ splitSlash l, '/' ∉ seg := by
  induction l with
  | nil => simp [splitSlash]
  | cons c cs ih =>
    by_cases hc : c = '/'
    · subst hc
      intro seg hseg
      simp only [splitSlash, if_true, List.mem_cons] at hseg
      rcases hseg with rfl | h
      · simp
      · exact ih seg h
    · rw [splitSlash_cons_of_ne c cs hc]
      intro seg hseg
      rcases List.mem_cons.1 hseg with rfl | h
      · intro hmem
        rcases List.mem_cons.1 hmem with h1 | h1
        · exact hc h1.symm
        · cases hs : splitSlash cs with
          | nil => rw [hs] at h1; simp at h1
          | cons s ss =>
            rw [hs] at h1
            exact ih s (by rw [hs]; exact List.mem_cons_self _ _) (by simpa using h1)
      · exact ih seg (List.mem_of_mem_tail h)

theorem splitSlash_of_no_sep (e : List Char) (he : '/' ∉ e) : splitSlash e = [e] := by
  induction e with
  | nil => rfl
  | cons c cs ih =>
    have hc : c ≠ '/' := fun h => he (by rw [h]; exact List.mem_cons_self _ _)
    have hcs : '/' ∉ cs := fun h => he (List.mem_cons_of_mem _ h)
    rw [splitSlash_cons_of_ne c cs hc, ih hcs]
    rfl

theorem splitSlash_append_sep (e rest : List Char) (he : '/' ∉ e) :
    splitSlash (e ++ '/' :: rest) = e :: splitSlash rest := by
  induction e with
  | nil => simp [splitSlash]
  | cons c cs ih =>
    have hc : c ≠ '/' := fun h => he (by rw [h]; exact List.mem_cons_self _ _)
    have hcs : '/' ∉ cs := fun h => he (List.mem_cons_of_mem _ h)
    rw [List.cons_append, splitSlash_cons_of_ne c _ hc, ih hcs]
    rfl

theorem splitSlash_joinSlash (L : List (List Char)) (hL : L ≠ [])
    (hsep : ∀ e ∈ L, '/' ∉ e) : splitSlash (joinSlash L) = L := by
  induction L with
  | nil => exact absurd rfl hL
  | cons a rest ih =>
    cases rest with
    | nil =>
      simp only [joinSlash]
      exact splitSlash_of_no_sep a (hsep a (List.mem_cons_self _ _))
    | cons b rest2 =>
      rw [joinSlash_cons_cons, splitSlash_append_sep a _ (hsep a (List.mem_cons_self _ _)),
        ih (by simp) (fun e he => hsep e (List.mem_cons_of_mem _ he))]

theorem backtrackRev_to_sep (dotdot : Nat) (b : List Char) (hb : dotdot ≤ b.length) :
    ∀ (w : List Char), w ≠ [] → '/' ∉ w → backtrackRev dotdot (w ++ '/' :: b) = b := by
  intro w
  induction w with
  | nil => intro h; exact absurd rfl h
  | cons c w ih =>
    intro _ hsep
    have hc : c ≠ '/' := fun h => hsep (by rw [h]; exact List.mem_cons_self _ _)
    have hw : '/' ∉ w := fun h => hsep (List.mem_cons_of_mem _ h)
    rw [List.cons_append, backtrackRev]
    have hlen : dotdot < (w ++ '/' :: b).length := by
      rw [List.length_append, List.length_cons]; omega
    rw [if_pos ⟨hlen, hc⟩]
    cases w with
    | nil =>
      rw [List.nil_append, backtrackRev, if_neg (fun h => h.2 rfl)]
    | cons d w2 => exact ih (by simp) hw

theorem backtrackRev_to_dotdot (dotdot : Nat) (b : List Char) (hb : b.length = dotdot) :
    ∀ (w : List Char), w ≠ [] → '/' ∉ w → backtrackRev dotdot (w ++ b) = b := by
  intro w
  induction w with
  | nil => intro h; exact absurd rfl h
  | cons c w ih =>
    intro _ hsep
    have hc : c ≠ '/' := fun h => hsep (by rw [h]; exact List.mem_cons_self _ _)
    have hw : '/' ∉ w := fun h => hsep (List.mem_cons_of_mem _ h)
    rw [List.cons_append, backtrackRev]
    cases w with
    | nil =>
      rw [List.nil_append, if_neg (fun h => by omega)]
    | cons d w2 =>
      have hlen : dotdot < (d :: w2 ++ b).length := by
        rw [List.length_append, List.length_cons]; omega
      rw [if_pos ⟨hlen, hc⟩]
      exact ih (by simp) hw

theorem backtrack_to_sep (dotdot : Nat) (base e : List Char) (hb : dotdot ≤ base.length)
    (he : e ≠ []) (hsep : '/' ∉ e) : backtrack dotdot (base ++ '/' :: e) = base := by
  unfold backtrack
  have h : (base ++ '/' :: e).reverse = e.reverse ++ '/' :: base.reverse := by simp
  rw [h, backtrackRev_to_sep dotdot base.reverse (by simpa using hb) e.reverse
    (by simpa using he) (by simpa using hsep)]
  simp

theorem backtrack_to_dotdot (dotdot : Nat) (base e : List Char) (hb : base.length = dotdot)
    (he : e ≠ []) (hsep : '/' ∉ e) : backtrack dotdot (base ++ e) = base := by
  unfold backtrack
  have h : (base ++ e).reverse = e.reverse ++ base.reverse := by simp
  rw [h, backtrackRev_to_dotdot dotdot base.reverse (by simpa using hb) e.reverse
    (by simpa using he) (by simpa using hsep)]
  simp

theorem takeWhile_notSep_nil_iff (r : List Char) :
    r.takeWhile (fun x => x != '/') = [] ↔ (r = [] ∨ r.head? = some '/') := by
  cases r with
  | nil => simp
  | cons d r2 =>
    by_cases hd : d = '/'
    · subst hd; simp
    · have h1 : (d != '/') = true := by simpa using hd
      simp [List.takeWhile_cons, h1, hd]

theorem dropWhile_notSep_of_nil (r : List Char) (h : r = [] ∨ r.head? = some '/') :
    r.dropWhile (fun x => x != '/') = r := by
  cases r with
  | nil => rfl
  | cons d r2 =>
    have hd : d = '/' := by
      rcases h with h | h
      · cases h
      · simpa using h
    subst hd
    simp [List.dropWhile_cons]

theorem takeWhile_notSep_dot_iff (r : List Char) :
    r.takeWhile (fun x => x != '/') = ['.'] ↔
      (r.head? = some '.' ∧ (r.tail = [] ∨ r.tail.head? = some '/')) := by
  cases r with
  | nil => simp
  | cons d r2 =>
    by_cases hd : d = '/'
    · subst hd; simp
    · have h1 : (d != '/') = true := by simpa using hd
      rw [List.takeWhile_cons, h1]
      simp only [if_true, List.cons.injEq, List.head?_cons, Option.some.injEq, List.tail_cons]
      rw [takeWhile_notSep_nil_iff]

theorem dropWhile_notSep_of_dot (r : List Char)
    (h : r.head? = some '.' ∧ (r.tail = [] ∨ r.tail.head? = some '/')) :
    r.dropWhile (fun x => x != '/') = r.tail := by
  cases r with
  | nil => rfl
  | cons d r2 =>
    have hd : d = '.' := by simpa using h.1
    subst hd
    rw [List.dropWhile_cons]
    simp only [List.tail_cons] at h ⊢
    rw [dropWhile_notSep_of_nil r2 h.2]
    rfl

/-- One round of the character loop at a byte that is not a separator, stated with the
path element `seg` that starts there and the input `rest` that follows it. -/
theorem cleanLoop_element (rooted : Bool) (fuel : Nat) (c : Char) (r1 out : List Char)
    (dotdot : Nat) (hc : c ≠ '/') :
    cleanLoop rooted (fuel + 1) (c :: r1) out dotdot =
      if (c :: r1).takeWhile (fun x => x != '/') = ['.'] then
        cleanLoop rooted fuel ((c :: r1).dropWhile (fun x => x != '/')) out dotdot
      else if (c :: r1).takeWhile (fun x => x != '/') = ['.', '.'] then
        if dotdot < out.length then
          cleanLoop rooted fuel ((c :: r1).dropWhile (fun x => x != '/'))
            (backtrack dotdot out) dotdot
        else if rooted = false then
          cleanLoop rooted fuel ((c :: r1).dropWhile (fun x => x != '/'))
            ((if 0 < out.length then out ++ ['/'] else out) ++ ['.', '.'])
            ((if 0 < out.length then out ++ ['/'] else out) ++ ['.', '.']).length
        else
          cleanLoop rooted fuel ((c :: r1).dropWhile (fun x => x != '/')) out dotdot
      else
        cleanLoop rooted fuel ((c :: r1).dropWhile (fun x => x != '/'))
          ((if (rooted = true ∧ out.length ≠ 1) ∨ (rooted = false ∧ out.length ≠ 0)
            then out ++ ['/'] else out) ++ (c :: r1).takeWhile (fun x => x != '/')) dotdot := by
  have h1 : (c != '/') = true := by simpa using hc
  have htake : (c :: r1).takeWhile (fun x => x != '/') =
      c :: r1.takeWhile (fun x => x != '/') := by
    rw [List.takeWhile_cons, h1]; rfl
  have hdrop : (c :: r1).dropWhile (fun x => x != '/') = r1.dropWhile (fun x => x != '/') := by
    rw [List.dropWhile_cons, h1]; rfl
  rw [cleanLoop, if_neg hc]
  by_cases hA : c = '.' ∧ (r1 = [] ∨ r1.head? = some '/')
  · rw [if_pos hA]
    have hseg : (c :: r1).takeWhile (fun x => x != '/') = ['.'] := by
      rw [htake, hA.1, (takeWhile_notSep_nil_iff r1).2 hA.2]
    rw [if_pos hseg, hdrop, dropWhile_notSep_of_nil r1 hA.2]
  · rw [if_neg hA]
    have hseg : (c :: r1).takeWhile (fun x => x != '/') ≠ ['.'] := by
      rw [htake]
      intro h
      simp only [List.cons.injEq] at h
      exact hA ⟨h.1, (takeWhile_notSep_nil_iff r1).1 h.2⟩
    rw [if_neg hseg]
    by_cases hB : c = '.' ∧ r1.head? = some '.' ∧ (r1.tail = [] ∨ r1.tail.head? = some '/')
    · rw [if_pos hB]
      have hseg2 : (c :: r1).takeWhile (fun x => x != '/') = ['.', '.'] := by
        rw [htake, hB.1, (takeWhile_notSep_dot_iff r1).2 hB.2]
      rw [if_pos hseg2, hdrop, dropWhile_notSep_of_dot r1 hB.2]
    · rw [if_neg hB]
      have hseg2 : (c :: r1).takeWhile (fun x => x != '/') ≠ ['.', '.'] := by
        rw [htake]
        intro h
        simp only [List.cons.injEq] at h
        exact hB ⟨h.1, (takeWhile_notSep_dot_iff r1).1 (by rw [h.2])⟩
      rw [if_neg hseg2]

theorem joinSlash_ne_nil (L : List (List Char)) (hL : L ≠ []) (hne : ∀ e ∈ L, e ≠ []) :
    joinSlash L ≠ [] := by
  cases L with
  | nil => exact absurd rfl hL
  | cons a rest =>
    have ha := hne a (List.mem_cons_self _ _)
    cases rest with
    | nil => simpa [joinSlash] using ha
    | cons b rest2 =>
      rw [joinSlash_cons_cons]
      simp [ha]

theorem joinSlash_length_le (A : List (List Char)) (reals : List (List Char)) :
    (joinSlash A).length ≤ (joinSlash (A ++ reals.reverse)).length := by
  induction reals with
  | nil => simp
  | cons e reals ih =>
    rw [List.reverse_cons, ← List.append_assoc, joinSlash_append_singleton]
    split_ifs with h
    · have hA : A = [] := (List.append_eq_nil.1 h).1
      subst hA
      simp [joinSlash]
    · rw [List.length_append]
      omega

theorem joinSlash_length_lt (A : List (List Char)) (e : List Char) (reals : List (List Char))
    (he : e ≠ []) :
    (joinSlash A).length < (joinSlash (A ++ (e :: reals).reverse)).length := by
  rw [List.reverse_cons, ← List.append_assoc, joinSlash_append_singleton]
  have h1 := joinSlash_length_le A reals
  have h2 : 0 < e.length := List.length_pos.2 he
  split_ifs with h
  · have hA : A = [] := (List.append_eq_nil.1 h).1
    subst hA
    simpa [joinSlash] using h2
  · rw [List.length_append, List.length_cons]
    omega

theorem renderElems_elems_ne_nil (st : List (List Char) × Nat)
    (hreal : ∀ e ∈ st.1, RealElem e) :
    ∀ e ∈ List.replicate st.2 ['.', '.'] ++ st.1.reverse, e ≠ [] ∧ '/' ∉ e := by
  intro e he
  rcases List.mem_append.1 he with h | h
  · rw [List.eq_of_mem_replicate h]
    exact ⟨by simp, by decide⟩
  · have := hreal e (List.mem_reverse.1 h)
    exact ⟨this.1, this.2.2.2⟩

theorem dropWhile_notSep_head (l : List Char) (x : Char) (r : List Char)
    (h : l.dropWhile (fun x => x != '/') = x :: r) : x = '/' := by
  induction l with
  | nil => cases h
  | cons d l ih =>
    by_cases hd : d = '/'
    · subst hd
      simp only [List.dropWhile_cons, bne_self_eq_false, Bool.false_eq_true, if_false,
        List.cons.injEq] at h
      exact h.1.symm
    · have h1 : (d != '/') = true := by simpa using hd
      rw [List.dropWhile_cons, h1] at h
      exact ih h

theorem foldl_cleanStep_rest (rooted : Bool) (l : List Char) (st : List (List Char) × Nat) :
    List.foldl (cleanStep rooted) st
        (match l.dropWhile (fun x => x != '/') with
          | [] => []
          | _ :: r => splitSlash r) =
      List.foldl (cleanStep rooted) st (splitSlash (l.dropWhile (fun x => x != '/'))) := by
  cases h : l.dropWhile (fun x => x != '/') with
  | nil => simp [splitSlash, cleanStep]
  | cons x r =>
    have hx := dropWhile_notSep_head l x r h
    subst hx
    simp [splitSlash, cleanStep]

theorem takeWhile_notSep_no_sep (l : List Char) : '/' ∉ l.takeWhile (fun x => x != '/') := by
  intro h
  have := List.mem_takeWhile_imp h
  simp at this

/-- The character loop of `Clean` computes the element-wise reading: started on a buffer
that renders the kept elements `st`, with `dotdot` at the end of the leading `..`
elements, and with enough fuel, it returns the rendering of the elements kept after the
rest of the input has been processed. -/
theorem cleanLoop_eq_fold (rooted : Bool) :
    ∀ (fuel : Nat) (rest : List Char) (st : List (List Char) × Nat) (out : List Char)
      (dotdot : Nat),
      rest.length < fuel →
      (∀ e ∈ st.1, RealElem e) → (rooted = true → st.2 = 0) →
      out = renderElems rooted st →
      dotdot = (renderElems rooted ([], st.2)).length →
      cleanLoop rooted fuel rest out dotdot =
        renderElems rooted ((splitSlash rest).foldl (cleanStep rooted) st) := by
  intro fuel
  induction fuel with
  | zero => intro rest _ _ _ h; exact absurd h (Nat.not_lt_zero _)
  | succ fuel ih =>
    intro rest st out dotdot hlen hreal hroot hout hdd
    cases rest with
    | nil =>
      rw [cleanLoop]
      simp [splitSlash, cleanStep, hout]
    | cons c r1 =>
      have hlen1 : r1.length < fuel := by
        rw [List.length_cons] at hlen; omega
      by_cases hc : c = '/'
      · subst hc
        rw [cleanLoop, if_pos rfl]
        have h1 : splitSlash ('/' :: r1) = [] :: splitSlash r1 := by simp [splitSlash]
        have h2 : cleanStep rooted st [] = st := by simp [cleanStep]
        rw [h1, List.foldl_cons, h2]
        exact ih r1 st out dotdot hlen1 hreal hroot hout hdd
      · have hp : (c != '/') = true := by simpa using hc
        have hseg_ne : (c :: r1).takeWhile (fun x => x != '/') ≠ [] := by
          rw [List.takeWhile_cons, hp]; simp
        have hseg_sep := takeWhile_notSep_no_sep (c :: r1)
        have hrl : ((c :: r1).dropWhile (fun x => x != '/')).length < fuel := by
          rw [List.dropWhile_cons, hp]
          simp only [if_true]
          exact lt_of_le_of_lt (List.dropWhile_sublist _).length_le hlen1
        rw [cleanLoop_element rooted fuel c r1 out dotdot hc,
          splitSlash_eq_takeWhile_cons (c :: r1), List.foldl_cons, foldl_cleanStep_rest]
        generalize (c :: r1).takeWhile (fun x => x != '/') = seg at hseg_ne hseg_sep ⊢
        generalize (c :: r1).dropWhile (fun x => x != '/') = rest2 at hrl ⊢
        by_cases h1 : seg = ['.']
        · have hst : cleanStep rooted st seg = st := by simp [cleanStep, h1]
          rw [if_pos h1, hst]
          exact ih rest2 st out dotdot hrl hreal hroot hout hdd
        · rw [if_neg h1]
          by_cases h2 : seg = ['.', '.']
          · rw [if_pos h2]
            subst h2
            obtain ⟨reals, n⟩ := st
            cases reals with
            | nil =>
              have hlt : ¬ dotdot < out.length := by rw [hout, hdd]; simp
              rw [if_neg hlt]
              cases rooted with
              | true =>
                have hst : cleanStep true ([], n) ['.', '.'] = ([], n) := by simp [cleanStep]
                rw [hst]
                simp only [Bool.true_eq_false, if_false]
                exact ih rest2 ([], n) out dotdot hrl hreal hroot hout hdd
              | false =>
                have hst : cleanStep false ([], n) ['.', '.'] = ([], n + 1) := by
                  simp [cleanStep]
                rw [hst]
                simp only [if_true]
                have hnew : (if 0 < out.length then out ++ ['/'] else out) ++ ['.', '.'] =
                    renderElems false ([], n + 1) := by
                  rw [hout]
                  simp only [renderElems, Bool.false_eq_true, if_false, List.nil_append,
                    List.reverse_nil, List.append_nil]
                  rw [List.replicate_succ', joinSlash_append_singleton]
                  by_cases hn : n = 0
                  · subst hn; simp [joinSlash]
                  · have hne : List.replicate n ['.', '.'] ≠ [] := by
                      cases n with
                      | zero => exact absurd rfl hn
                      | succ k => simp [List.replicate_succ]
                    have hj := joinSlash_ne_nil (List.replicate n ['.', '.']) hne
                      (fun e he => by rw [List.eq_of_mem_replicate he]; simp)
                    rw [if_neg hne, if_pos (List.length_pos.2 hj)]
                    simp
                exact ih rest2 ([], n + 1) _ _ hrl (by simp) (by simp) hnew
                  (by rw [hnew])
            | cons e reals2 =>
              have he := hreal e (List.mem_cons_self _ _)
              have hlt : dotdot < out.length := by
                rw [hout, hdd]
                simp only [renderElems, List.length_append, List.reverse_nil, List.append_nil]
                have := joinSlash_length_lt (List.replicate n ['.', '.']) e reals2 he.1
                omega
              have hst : cleanStep rooted (e :: reals2, n) ['.', '.'] = (reals2, n) := by
                simp [cleanStep]
              rw [if_pos hlt, hst]
              have hback : backtrack dotdot out = renderElems rooted (reals2, n) := by
                rw [hout]
                simp only [renderElems]
                rw [List.reverse_cons, ← List.append_assoc, joinSlash_append_singleton]
                by_cases hemp : List.replicate n ['.', '.'] ++ reals2.reverse = []
                · rw [if_pos hemp, hemp]
                  have hn : List.replicate n ['.', '.'] = [] := (List.append_eq_nil.1 hemp).1
                  have hj0 : joinSlash [] = [] := rfl
                  rw [hj0, List.append_nil]
                  apply backtrack_to_dotdot _ _ _ _ he.1 he.2.2.2
                  rw [hdd]
                  simp [renderElems, hn, joinSlash]
                · rw [if_neg hemp, ← List.append_assoc]
                  apply backtrack_to_sep _ _ _ _ he.1 he.2.2.2
                  rw [hdd]
                  simp only [renderElems, List.length_append, List.reverse_nil, List.append_nil]
                  have := joinSlash_length_le (List.replicate n ['.', '.']) reals2
                  omega
              exact ih rest2 (reals2, n) _ dotdot hrl
                (fun x hx => hreal x (List.mem_cons_of_mem _ hx)) hroot hback hdd
          · rw [if_neg h2]
            have hst : cleanStep rooted st seg = (seg :: st.1, st.2) := by
              simp [cleanStep, h1, h2, hseg_ne]
            rw [hst]
            have hnew : (if (rooted = true ∧ out.length ≠ 1) ∨ (rooted = false ∧ out.length ≠ 0)
                then out ++ ['/'] else out) ++ seg = renderElems rooted (seg :: st.1, st.2) := by
              rw [hout]
              simp only [renderElems]
              rw [List.reverse_cons, ← List.append_assoc, joinSlash_append_singleton]
              by_cases hemp : List.replicate st.2 ['.', '.'] ++ st.1.reverse = []
              · rw [if_pos hemp, hemp]
                cases rooted <;> simp [joinSlash]
              · rw [if_neg hemp]
                have hj := joinSlash_ne_nil _ hemp
                  (fun e he => (renderElems_elems_ne_nil st hreal e he).1)
                have hpos := List.length_pos.2 hj
                cases rooted
                · simp only [Bool.false_eq_true, false_and, if_false, List.nil_append,
                    List.length_append, true_and, false_or]
                  rw [if_pos (by omega)]
                  simp
                · simp only [true_and, Bool.true_eq_false, false_and, or_false,
                    List.length_append, List.length_cons, List.length_nil]
                  rw [if_pos (by simp only [if_true, List.length_cons, List.length_nil]; omega)]
                  simp
            refine ih rest2 (seg :: st.1, st.2) _ dotdot hrl ?_ hroot hnew hdd
            intro x hx
            rcases List.mem_cons.1 hx with rfl | hx2
            · exact ⟨hseg_ne, h1, h2, hseg_sep⟩
            · exact hreal x hx2

/-- The character loop of `filepath.Clean` and the element-wise reading give the same
result on every path. -/
theorem cleanChars_eq_cleanElems (path : List Char) : cleanChars path = cleanElems path := by
  cases path with
  | nil => rfl
  | cons c r =>
    unfold cleanChars cleanElems
    rw [if_neg (List.cons_ne_nil c r)]
    by_cases hc : c = '/'
    · subst hc
      have hsplit : splitSlash ('/' :: r) = [] :: splitSlash r := by simp [splitSlash]
      have hstep : cleanStep true ([], 0) [] = ([], 0) := by simp [cleanStep]
      have hloop := cleanLoop_eq_fold true (('/' :: r).length + 1) r ([], 0) ['/'] 1
        (by simp only [List.length_cons]; omega) (by simp) (by simp)
        (by simp [renderElems, joinSlash]) (by simp [renderElems, joinSlash])
      simp only [List.head?_cons, decide_True, if_true, List.tail_cons]
      rw [hloop, hsplit, List.foldl_cons, hstep]
    · have hrooted : decide ((c :: r).head? = some '/') = false := by
        simpa using hc
      have hloop := cleanLoop_eq_fold false ((c :: r).length + 1) (c :: r) ([], 0) [] 0
        (by omega) (by simp) (by simp)
        (by simp [renderElems, joinSlash]) (by simp [renderElems, joinSlash])
      simp only [hrooted, Bool.false_eq_true, if_false]
      rw [hloop]

theorem cleanStep_keeps_real (rooted : Bool) (st : List (List Char) × Nat) (seg : List Char)
    (hreal : ∀ e ∈ st.1, RealElem e) (hroot : rooted = true → st.2 = 0) (hseg : '/' ∉ seg) :
    (∀ e ∈ (cleanStep rooted st seg).1, RealElem e) ∧
      (rooted = true → (cleanStep rooted st seg).2 = 0) := by
  unfold cleanStep
  by_cases h1 : seg = [] ∨ seg = ['.']
  · rw [if_pos h1]; exact ⟨hreal, hroot⟩
  · rw [if_neg h1]
    by_cases h2 : seg = ['.', '.']
    · rw [if_pos h2]
      obtain ⟨reals, n⟩ := st
      cases reals with
      | nil =>
        cases rooted with
        | true => exact ⟨hreal, hroot⟩
        | false => exact ⟨by simp, by simp⟩
      | cons e reals2 =>
        exact ⟨fun x hx => hreal x (List.mem_cons_of_mem _ hx), hroot⟩
    · rw [if_neg h2]
      refine ⟨?_, hroot⟩
      intro x hx
      rcases List.mem_cons.1 hx with rfl | hx2
      · exact ⟨fun h => h1 (Or.inl h), fun h => h1 (Or.inr h), h2, hseg⟩
      · exact hreal x hx2

theorem foldl_cleanStep_keeps_real (rooted : Bool) (segs : List (List Char)) :
    ∀ (st : List (List Char) × Nat), (∀ e ∈ st.1, RealElem e) → (rooted = true → st.2 = 0) →
      (∀ seg ∈ segs, '/' ∉ seg) →
      (∀ e ∈ (segs.foldl (cleanStep rooted) st).1, RealElem e) ∧
        (rooted = true → (segs.foldl (cleanStep rooted) st).2 = 0) := by
  induction segs with
  | nil => intro st h1 h2 _; exact ⟨h1, h2⟩
  | cons seg rest ih =>
    intro st h1 h2 hsegs
    rw [List.foldl_cons]
    obtain ⟨h3, h4⟩ := cleanStep_keeps_real rooted st seg h1 h2
      (hsegs seg (List.mem_cons_self _ _))
    exact ih _ h3 h4 (fun s hs => hsegs s (List.mem_cons_of_mem _ hs))

theorem foldl_cleanStep_real (rooted : Bool) (L : List (List Char)) :
    ∀ (acc : List (List Char)) (n : Nat), (∀ e ∈ L, RealElem e) →
      L.foldl (cleanStep rooted) (acc, n) = (L.reverse ++ acc, n) := by
  induction L with
  | nil => intro acc n _; rfl
  | cons e rest ih =>
    intro acc n h
    have he := h e (List.mem_cons_self _ _)
    have hstep : cleanStep rooted (acc, n) e = (e :: acc, n) := by
      simp [cleanStep, he.1, he.2.1, he.2.2.1]
    rw [List.foldl_cons, hstep, ih _ _ (fun x hx => h x (List.mem_cons_of_mem _ hx))]
    simp

theorem foldl_cleanStep_dotdots (n : Nat) :
    ∀ (k : Nat), (List.replicate n ['.', '.']).foldl (cleanStep false) ([], k) = ([], k + n) := by
  induction n with
  | zero => intro k; rfl
  | succ n ih =>
    intro k
    have hstep : cleanStep false ([], k) ['.', '.'] = ([], k + 1) := by simp [cleanStep]
    rw [List.replicate_succ, List.foldl_cons, hstep, ih]
    congr 1
    omega

theorem head?_joinSlash (e : List Char) (rest : List (List Char)) (he : e ≠ []) :
    (joinSlash (e :: rest)).head? = e.head? := by
  cases rest with
  | nil => rfl
  | cons b rest2 =>
    rw [joinSlash_cons_cons]
    cases e with
    | nil => exact absurd rfl he
    | cons c cs => rfl

/-- A rendering of kept elements is a fixed point of the element-wise `Clean`. -/
theorem cleanElems_render (rooted : Bool) (reals : List (List Char)) (n : Nat)
    (hreal : ∀ e ∈ reals, RealElem e) (hroot : rooted = true → n = 0) :
    cleanElems (if renderElems rooted (reals, n) = [] then ['.']
        else renderElems rooted (reals, n)) =
      (if renderElems rooted (reals, n) = [] then ['.'] else renderElems rooted (reals, n)) := by
  have hrev : ∀ e ∈ reals.reverse, RealElem e := fun e he => hreal e (List.mem_reverse.1 he)
  cases rooted with
  | true =>
    have hn : n = 0 := hroot rfl
    subst hn
    have hr : renderElems true (reals, 0) = '/' :: joinSlash reals.reverse := by
      simp [renderElems]
    rw [hr, if_neg (List.cons_ne_nil _ _)]
    unfold cleanElems
    have hsplit : splitSlash ('/' :: joinSlash reals.reverse) =
        [] :: splitSlash (joinSlash reals.reverse) := by simp [splitSlash]
    have hstep : cleanStep true ([], 0) [] = ([], 0) := by simp [cleanStep]
    simp only [List.head?_cons, decide_True]
    rw [hsplit, List.foldl_cons, hstep]
    by_cases hemp : reals = []
    · subst hemp
      simp [joinSlash, splitSlash, cleanStep, renderElems]
    · have hne : reals.reverse ≠ [] := by simpa using hemp
      rw [splitSlash_joinSlash _ hne (fun e he => (hrev e he).2.2.2),
        foldl_cleanStep_real true _ [] 0 hrev]
      simp [renderElems]
  | false =>
    have hr : renderElems false (reals, n) =
        joinSlash (List.replicate n ['.', '.'] ++ reals.reverse) := by
      simp [renderElems]
    rw [hr]
    have hall := renderElems_elems_ne_nil (reals, n) hreal
    by_cases hemp : List.replicate n ['.', '.'] ++ reals.reverse = []
    · rw [hemp]
      decide
    · have hj := joinSlash_ne_nil _ hemp (fun e he => (hall e he).1)
      rw [if_neg hj]
      unfold cleanElems
      have hhead : decide ((joinSlash (List.replicate n ['.', '.'] ++ reals.reverse)).head?
          = some '/') = false := by
        rw [decide_eq_false_iff_not]
        cases hL : List.replicate n ['.', '.'] ++ reals.reverse with
        | nil => exact absurd hL hemp
        | cons e rest =>
          have he := hall e (by simp only []; rw [hL]; exact List.mem_cons_self _ _)
          rw [head?_joinSlash e rest he.1]
          intro h
          exact he.2 (List.mem_of_mem_head? h)
      simp only [hhead]
      rw [splitSlash_joinSlash _ hemp (fun e he => (hall e he).2), List.foldl_append,
        foldl_cleanStep_dotdots n 0, foldl_cleanStep_real false _ [] (0 + n) hrev]
      simp only [List.reverse_reverse, List.append_nil, Nat.zero_add, hr]
      rw [if_neg hj]

/-- The element-wise `Clean` is idempotent. -/
theorem cleanElems_idem (path : List Char) : cleanElems (cleanElems path) = cleanElems path := by
  have hkeep := foldl_cleanStep_keeps_real (decide (path.head? = some '/')) (splitSlash path)
    ([], 0) (by simp) (by simp) (splitSlash_no_sep path)
  have h : cleanElems path =
      (if renderElems (decide (path.head? = some '/'))
          ((splitSlash path).foldl (cleanStep (decide (path.head? = some '/'))) ([], 0)) = []
        then ['.']
        else renderElems (decide (path.head? = some '/'))
          ((splitSlash path).foldl (cleanStep (decide (path.head? = some '/'))) ([], 0))) := rfl
  rw [h]
  exact cleanElems_render _ _ _ hkeep.1 hkeep.2

/-- Go's `filepath.Clean` is idempotent. -/
theorem cleanChars_idem (path : List Char) : cleanChars (cleanChars path) = cleanChars path := by
  rw [cleanChars_eq_cleanElems, cleanChars_eq_cleanElems, cleanElems_idem]

/-- A cleaned path is the root `/` or ends in a character that is not a separator. -/
theorem cleanChars_shape (path : List Char) :
    cleanChars path = ['/'] ∨
      ∃ (x e : List Char), cleanChars path = x ++ e ∧ e ≠ [] ∧ '/' ∉ e := by
  rw [cleanChars_eq_cleanElems]
  have hkeep := foldl_cleanStep_keeps_real (decide (path.head? = some '/')) (splitSlash path)
    ([], 0) (by simp) (by simp) (splitSlash_no_sep path)
  unfold cleanElems
  simp only []
  generalize (splitSlash path).foldl (cleanStep (decide (path.head? = some '/'))) ([], 0) = st
    at hkeep ⊢
  generalize decide (path.head? = some '/') = rooted at hkeep ⊢
  obtain ⟨reals, n⟩ := st
  have hall := renderElems_elems_ne_nil (reals, n) hkeep.1
  by_cases hemp : List.replicate n ['.', '.'] ++ reals.reverse = []
  · cases rooted with
    | true => left; simp [renderElems, hemp, joinSlash]
    | false => right; exact ⟨[], ['.'], by simp [renderElems, hemp, joinSlash], by simp, by decide⟩
  · right
    obtain ⟨L0, e, hL⟩ : ∃ L0 e, List.replicate n ['.', '.'] ++ reals.reverse = L0 ++ [e] :=
      ⟨_, _, (List.dropLast_append_getLast hemp).symm⟩
    have he := hall e (by simp only []; rw [hL]; simp)
    have hj := joinSlash_ne_nil _ hemp (fun x hx => (hall x hx).1)
    have hne : renderElems rooted (reals, n) ≠ [] := by
      simp [renderElems, hj]
    rw [if_neg hne]
    simp only [renderElems]
    rw [hL, joinSlash_append_singleton]
    generalize (if rooted = true then ['/'] else []) = pre
    by_cases hL0 : L0 = []
    · rw [if_pos hL0]
      exact ⟨pre, e, rfl, he.1, he.2⟩
    · rw [if_neg hL0]
      exact ⟨pre ++ joinSlash L0 ++ ['/'], e, by simp, he.1, he.2⟩

theorem hasSuffix_sep_false (x e : List Char) (he : e ≠ []) (hsep : '/' ∉ e) :
    hasSuffix (x ++ e) ['/'] = false := by
  unfold hasSuffix
  obtain ⟨e0, c, rfl⟩ : ∃ e0 c, e = e0 ++ [c] :=
    ⟨_, _, (List.dropLast_append_getLast he).symm⟩
  have hc : c ≠ '/' := fun h => hsep (by rw [h]; simp)
  simp [List.isPrefixOf, Ne.symm hc]

/-! ## `SanitizePath` -/

/-- C5, counterexample: `SanitizePath "/"` is the empty string, and `SanitizePath` of the
empty string is `"."`; applying `SanitizePath` twice to `/` differs from applying it
once. -/
theorem SanitizePath_root_not_idempotent :
    SanitizePath "/" = "" ∧ SanitizePath (SanitizePath "/") = "." ∧
      SanitizePath (SanitizePath "/") ≠ SanitizePath "/" := by
  decide

/-- A path that cleans to the root is sanitized to the empty string, and sanitizing that
gives `"."`. -/
theorem SanitizePath_of_root (p : String) (h : Clean p = "/") :
    SanitizePath p = "" ∧ SanitizePath (SanitizePath p) = "." := by
  have hc : cleanChars p.data = ['/'] := by
    have := congrArg String.data h
    simpa [Clean] using this
  have h1 : SanitizePath p = "" := by
    unfold SanitizePath sanitizeChars
    rw [hc]
    rfl
  rw [h1]
  exact ⟨rfl, by decide⟩

/-- C5, amended: for every path that `filepath.Clean` does not turn into the root `/`,
`SanitizePath` applied twice gives the same string as `SanitizePath` applied once. -/
theorem SanitizePath_idempotent_off_root (p : String) (h : Clean p ≠ "/") :
    SanitizePath (SanitizePath p) = SanitizePath p := by
  have hs : cleanChars p.data ≠ ['/'] := by
    intro heq
    apply h
    unfold Clean
    rw [heq]
  rcases cleanChars_shape p.data with h1 | ⟨x, e, hxe, he, hsep⟩
  · exact absurd h1 hs
  · have hsuf : hasSuffix (cleanChars p.data) ['/'] = false := by
      rw [hxe]; exact hasSuffix_sep_false x e he hsep
    have hsan : sanitizeChars p.data = cleanChars p.data := by
      unfold sanitizeChars
      simp [hsuf]
    have hsan2 : sanitizeChars (cleanChars p.data) = cleanChars p.data := by
      unfold sanitizeChars
      rw [cleanChars_idem]
      simp [hsuf]
    unfold SanitizePath
    simp only []
    rw [hsan, hsan2]

/-- C5, amended, at `./a/b/` and at the empty string. -/
theorem SanitizePath_idempotent_off_root_witness :
    (Clean "./a/b/" ≠ "/" ∧ SanitizePath (SanitizePath "./a/b/") = SanitizePath "./a/b/") ∧
    (Clean "" ≠ "/" ∧ SanitizePath (SanitizePath "") = SanitizePath "") :=
  ⟨⟨by decide, SanitizePath_idempotent_off_root "./a/b/" (by decide)⟩,
   ⟨by decide, SanitizePath_idempotent_off_root "" (by decide)⟩⟩

/-! ## Path validation: what the escape and root checks do reject -/

/-- Every path that contains the substring `../` gets the escape error, whatever the
directories are. -/
theorem ValidatePath_escape_of_dotdot_slash (cwd home path : String)
    (h : ['.', '.', '/'] <:+: path.data) :
    ValidatePath (some cwd) (some home) path = ("", some PathError.escape) := by
  unfold ValidatePath
  simp only [(containsSub_iff _ _).2 h, if_true]

/-- An absolute path without `../` that starts neither with the characters of the working
directory nor with those of the home directory gets the outside-root error. -/
theorem ValidatePath_outsideRoot_of_no_prefix (cwd home path : String)
    (hesc : ¬ (['.', '.', '/'] <:+: path.data)) (habs : ['/'] <+: path.data)
    (hcwd : ¬ (cwd.data <+: path.data)) (hhome : ¬ (home.data <+: path.data)) :
    ValidatePath (some cwd) (some home) path = ("", some PathError.outsideRoot) := by
  have h1 : containsSub path.data ['.', '.', '/'] = false := by
    rw [← Bool.not_eq_true, containsSub_iff]; exact hesc
  have h2 : hasPrefix path.data ['/'] = true := (hasPrefix_iff _ _).2 habs
  have h3 : hasPrefix path.data cwd.data = false := by
    rw [← Bool.not_eq_true, hasPrefix_iff]; exact hcwd
  have h4 : hasPrefix path.data home.data = false := by
    rw [← Bool.not_eq_true, hasPrefix_iff]; exact hhome
  unfold ValidatePath
  simp [h1, h2, h3, h4]

theorem splitSlash_decompose (l : List Char) (h : List Char) (t : List (List Char))
    (hs : splitSlash l = h :: t) (ht : t ≠ []) :
    ∃ r, l = h ++ '/' :: r ∧ t = splitSlash r := by
  rw [splitSlash_eq_takeWhile_cons] at hs
  simp only [List.cons.injEq] at hs
  obtain ⟨h1, h2⟩ := hs
  cases hd : l.dropWhile (fun x => x != '/') with
  | nil => rw [hd] at h2; exact absurd h2.symm ht
  | cons x r =>
    rw [hd] at h2
    have hx := dropWhile_notSep_head l x r hd
    subst hx
    refine ⟨r, ?_, h2.symm⟩
    rw [← h1, ← hd, List.takeWhile_append_dropWhile]

theorem infix_of_mem_dropLast_splitSlash :
    ∀ (n : Nat) (l : List Char), l.length ≤ n →
      ∀ seg ∈ (splitSlash l).dropLast, (seg ++ ['/']) <:+: l := by
  intro n
  induction n with
  | zero =>
    intro l hl seg hseg
    have : l = [] := List.length_eq_zero.1 (Nat.le_zero.1 hl)
    subst this
    simp [splitSlash] at hseg
  | succ n ih =>
    intro l hl seg hseg
    cases hs : splitSlash l with
    | nil => exact absurd hs (splitSlash_ne_nil l)
    | cons h t =>
      rw [hs] at hseg
      cases t with
      | nil => simp at hseg
      | cons t1 t2 =>
        obtain ⟨r, hl2, ht⟩ := splitSlash_decompose l h (t1 :: t2) hs (by simp)
        rw [List.dropLast_cons₂] at hseg
        rcases List.mem_cons.1 hseg with rfl | hmem
        · rw [hl2]
          exact ⟨[], r, by simp⟩
        · have hrlen : r.length ≤ n := by
            rw [hl2, List.length_append, List.length_cons] at hl
            omega
          have := ih r hrlen seg (by rw [← ht]; exact hmem)
          rw [hl2]
          exact this.trans ⟨h ++ ['/'], [], by simp⟩

/-- A path that `ValidatePath` accepts has no segment `..` before its last segment: the
only `..` segment that passes is a final one. -/
theorem ValidatePath_accepted_dotdot_only_last (cwd home path : String)
    (h : (ValidatePath (some cwd) (some home) path).2 = none) :
    ['.', '.'] ∉ (splitSlash path.data).dropLast := by
  intro hmem
  have hinf := infix_of_mem_dropLast_splitSlash path.data.length path.data (le_refl _) _ hmem
  rw [ValidatePath_escape_of_dotdot_slash cwd home path hinf] at h
  cases h

end Downloader
